import Mathlib

/-!
Verification development for the openvino IR graph engine core
(ngraph node/shape model, Slice shape inference, serialization codec,
pattern-rewrite engine).  Each C++ function referenced by the claims is
shallow-embedded as an executable Lean definition translated from the
source, and the claimed properties are proved or refuted about those
definitions.
-/

namespace Slice

/-- Maximum value of a C++ `int64_t`.  ngraph's `Interval` uses this value
as the sentinel for "no upper bound" (`Interval::s_max`), and
`Dimension(-1)` (a fully dynamic dimension) is the interval `[0, s_max]`. -/
def s_max : Int := 9223372036854775807

/-- Maximum value of a C++ `int32_t` (`INT32_MAX`). -/
def int32_max : Int := 2147483647

/-- An ngraph `Dimension`: an interval with inclusive bounds.  A static
dimension has `lo = hi`; a dimension with no static upper bound has
`hi = s_max` (modelled from the spec's data-model section, the
`Dimension`/`Interval` sources being outside the provided tree). -/
structure Dimension where
  lo : Int
  hi : Int
deriving DecidableEq, Repr

instance : Inhabited Dimension := ⟨⟨0, 0⟩⟩

/-- Well-formedness of a dimension interval: minimum does not exceed
maximum (the spec's `Dimension` invariant). -/
def Dimension.well_formed (d : Dimension) : Prop := d.lo ≤ d.hi

instance (d : Dimension) : Decidable d.well_formed := by
  unfold Dimension.well_formed; infer_instance

/-- Exact integer ceiling division for a non-negative numerator and
positive denominator: the closed-form ceiling of the spec's formula.  The
C++ source computes `std::ceil(e / std::fabs(step))` in `double`
(slice.cpp line 67); that double-precision computation is modelled
faithfully by `fp_ceil_div` below, and the two agree exactly when the
numerator is below `2 ^ 53` (`fp_ceil_div_exact`) but diverge above it. -/
def ceil_div (e a : Int) : Int := (e + a - 1) / a

/-- Translation of `get_sliced_dim_size` from
`src/ngraph/core/src/op/slice.cpp` (lines 50-69), with the final ceiling
taken exactly.  `get_sliced_dim_size_fp` below is the same function with
the ceiling computed in `double` precision as the source does; the two
agree for dimension sizes below `2 ^ 53` (`get_sliced_dim_size_fp_eq`). -/
def get_sliced_dim_size (start stop step dim_size : Int) : Int :=
  let start1 := if start < 0 then dim_size + start else start
  let stop1 := if stop < 0 then dim_size + stop else stop
  let start2 := max 0 (min start1 dim_size)
  let stop2 := max (-1) (min stop1 dim_size)
  let elements_in_range :=
    if step < 0 then max 0 (min (dim_size - 1) start2 - stop2)
    else max 0 (min dim_size stop2 - start2)
  ceil_div elements_in_range |step|

/-- The closed-form sliced-length formula exactly as the spec's section 4.1
words it: normalize a negative index by adding `dim_size`, clip `start`
into `[0, dim_size]` and `stop` into `[-1, dim_size]`, count elements,
output length is `ceil(count / abs step)`. -/
def spec_sliced_len (start stop step dim_size : Int) : Int :=
  let start' := if start < 0 then start + dim_size else start
  let stop' := if stop < 0 then stop + dim_size else stop
  let start_clipped := max 0 (min start' dim_size)
  let stop_clipped := max (-1) (min stop' dim_size)
  let count :=
    if step < 0 then max 0 (min (dim_size - 1) start_clipped - stop_clipped)
    else max 0 (min dim_size stop_clipped - start_clipped)
  ceil_div count |step|

theorem spec_sliced_len_eq (st sp se d : Int) :
    spec_sliced_len st sp se d = get_sliced_dim_size st sp se d := by
  simp only [spec_sliced_len, get_sliced_dim_size]
  have h1 : (if st < 0 then st + d else st) = (if st < 0 then d + st else st) := by
    split <;> omega
  have h2 : (if sp < 0 then sp + d else sp) = (if sp < 0 then d + sp else sp) := by
    split <;> omega
  rw [h1, h2]

/-- Axis normalization as in `calculate_output_shape`:
`axes[i] < 0 ? data_static_rank + axes[i] : axes[i]`. -/
def norm_axis (rank ax : Int) : Int := if ax < 0 then rank + ax else ax

/-- The per-axis output dimension computed by the body of the loop in
`op::v8::Slice::calculate_output_shape` (lines 276-303):
static axis, the three no-upper-bound special cases, and the general
interval case. -/
def sliced_output_dim (st sp se : Int) (d : Dimension) : Dimension :=
  let minSize := get_sliced_dim_size st sp se d.lo
  if d.lo = d.hi then
    ⟨minSize, minSize⟩
  else if d.hi = s_max ∧ ((se < 0 ∧ st < 0 ∧ 0 < sp) ∨ (0 < se ∧ sp < 0 ∧ 0 < st)) then
    ⟨0, s_max⟩
  else if d.hi = s_max ∧ (se < 0 ∧ 0 < st ∧ sp < 0) then
    ⟨0, if int32_max ≤ st then s_max else st + 1⟩
  else if d.hi = s_max ∧ (0 < se ∧ 0 < sp ∧ st < 0) then
    ⟨0, if int32_max ≤ sp then s_max else sp⟩
  else
    ⟨minSize, get_sliced_dim_size st sp se d.hi⟩

/-- Zip the four index vectors into per-axis items `(start, stop, step, axis)`. -/
def zip4 : List Int → List Int → List Int → List Int → List (Int × Int × Int × Int)
  | a :: as, b :: bs, c :: cs, d :: ds => (a, b, c, d) :: zip4 as bs cs ds
  | _, _, _, _ => []

/-- The validation-and-update loop of `calculate_output_shape`: for each
item, the normalized axis must be in range and the step non-zero
(`NODE_VALIDATION_CHECK`, modelled as `none`), and the output dimension
for that axis is overwritten.  The axis dimension is read from
the immutable `dataShape`, as in the source. -/
def slice_loop (dataShape : List Dimension) (rank : Int) :
    List (Int × Int × Int × Int) → List Dimension → Option (List Dimension)
  | [], out => some out
  | (st, sp, se, ax) :: rest, out =>
    let na := norm_axis rank ax
    if na < 0 ∨ rank ≤ na then none
    else if se = 0 then none
    else slice_loop dataShape rank rest
      (out.set na.toNat (sliced_output_dim st sp se (dataShape.getD na.toNat default)))

/-- Translation of `op::v8::Slice::calculate_output_shape`
(lines 239-306) for a static-rank data shape: the four index vectors must
have equal sizes, axis values must be unique, and each listed axis of the
copied data shape is replaced by its sliced dimension. -/
def calculate_output_shape (starts stops steps axes : List Int)
    (dataShape : List Dimension) : Option (List Dimension) :=
  if stops.length = starts.length ∧ steps.length = starts.length ∧
      axes.length = starts.length then
    if axes.Nodup then
      slice_loop dataShape (dataShape.length : Int) (zip4 starts stops steps axes) dataShape
    else none
  else none

/-- The (total) sequence of updates performed by a successful run of the loop. -/
def slice_loop_run (dataShape : List Dimension) (rank : Int) :
    List (Int × Int × Int × Int) → List Dimension → List Dimension
  | [], out => out
  | (st, sp, se, ax) :: rest, out =>
    slice_loop_run dataShape rank rest
      (out.set (norm_axis rank ax).toNat
        (sliced_output_dim st sp se (dataShape.getD (norm_axis rank ax).toNat default)))

/-- An item passes the loop's validation checks. -/
def item_ok (rank : Int) (it : Int × Int × Int × Int) : Prop :=
  0 ≤ norm_axis rank it.2.2.2 ∧ norm_axis rank it.2.2.2 < rank ∧ it.2.2.1 ≠ 0

theorem slice_loop_eq_run (ds : List Dimension) (rank : Int)
    (items : List (Int × Int × Int × Int)) (out : List Dimension)
    (h : ∀ it ∈ items, item_ok rank it) :
    slice_loop ds rank items out = some (slice_loop_run ds rank items out) := by
  induction items generalizing out with
  | nil => rfl
  | cons it rest ih =>
    obtain ⟨st, sp, se, ax⟩ := it
    have hok := h _ (List.mem_cons_self _ _)
    obtain ⟨h1, h2, h3⟩ := hok
    simp only [slice_loop, slice_loop_run]
    have hrange : ¬(norm_axis rank ax < 0 ∨ rank ≤ norm_axis rank ax) := by
      push_neg; exact ⟨h1, h2⟩
    rw [if_neg hrange, if_neg h3]
    exact ih _ (fun x hx => h x (List.mem_cons_of_mem _ hx))

theorem slice_loop_run_length (ds : List Dimension) (rank : Int)
    (items : List (Int × Int × Int × Int)) (out : List Dimension) :
    (slice_loop_run ds rank items out).length = out.length := by
  induction items generalizing out with
  | nil => rfl
  | cons it rest ih =>
    obtain ⟨st, sp, se, ax⟩ := it
    simp only [slice_loop_run]
    rw [ih, List.length_set]

theorem getD_set_ne (l : List Dimension) (i j : Nat) (a : Dimension) (hij : i ≠ j) :
    (l.set i a).getD j default = l.getD j default := by
  simp [List.getD_eq_getElem?_getD, List.getElem?_set, hij]

theorem getD_set_self (l : List Dimension) (i : Nat) (a : Dimension) (hi : i < l.length) :
    (l.set i a).getD i default = a := by
  simp [List.getD_eq_getElem?_getD, List.getElem?_set, hi]

theorem slice_loop_run_getD_untouched (ds : List Dimension) (rank : Int)
    (items : List (Int × Int × Int × Int)) (out : List Dimension) (j : Nat)
    (h : ∀ it ∈ items, (norm_axis rank it.2.2.2).toNat ≠ j) :
    (slice_loop_run ds rank items out).getD j default = out.getD j default := by
  induction items generalizing out with
  | nil => rfl
  | cons it rest ih =>
    obtain ⟨st, sp, se, ax⟩ := it
    simp only [slice_loop_run]
    rw [ih _ (fun x hx => h x (List.mem_cons_of_mem _ hx))]
    exact getD_set_ne _ _ _ _ (h _ (List.mem_cons_self _ _))

theorem slice_loop_run_getD_touched (ds : List Dimension) (rank : Int)
    (items : List (Int × Int × Int × Int)) (out : List Dimension) (i : Nat)
    (hi : i < items.length)
    (hnd : (items.map fun it => (norm_axis rank it.2.2.2).toNat).Nodup)
    (hlen : (norm_axis rank (items.getD i default).2.2.2).toNat < out.length) :
    (slice_loop_run ds rank items out).getD
        (norm_axis rank (items.getD i default).2.2.2).toNat default =
      sliced_output_dim (items.getD i default).1 (items.getD i default).2.1
        (items.getD i default).2.2.1
        (ds.getD (norm_axis rank (items.getD i default).2.2.2).toNat default) := by
  induction items generalizing out i with
  | nil => simp at hi
  | cons it rest ih =>
    obtain ⟨st, sp, se, ax⟩ := it
    rw [List.map_cons, List.nodup_cons] at hnd
    cases i with
    | zero =>
      simp only [List.getD_cons_zero] at hlen ⊢
      simp only [slice_loop_run]
      rw [slice_loop_run_getD_untouched]
      · exact getD_set_self _ _ _ hlen
      · intro x hx heq
        exact hnd.1 (heq ▸ List.mem_map_of_mem _ hx)
    | succ i' =>
      simp only [List.getD_cons_succ] at hlen ⊢
      simp only [slice_loop_run]
      exact ih _ _ (by simpa using hi) hnd.2 (by rwa [List.length_set])

theorem zip4_length (a b c d : List Int)
    (hb : b.length = a.length) (hc : c.length = a.length) (hd : d.length = a.length) :
    (zip4 a b c d).length = a.length := by
  induction a generalizing b c d with
  | nil =>
    cases b <;> cases c <;> cases d <;> rfl
  | cons x xs ih =>
    cases b with
    | nil => simp at hb
    | cons y ys =>
      cases c with
      | nil => simp at hc
      | cons z zs =>
        cases d with
        | nil => simp at hd
        | cons w ws =>
          simp only [zip4, List.length_cons] at *
          rw [ih ys zs ws (by omega) (by omega) (by omega)]

theorem zip4_mem (a b c d : List Int) (it : Int × Int × Int × Int)
    (h : it ∈ zip4 a b c d) :
    it.1 ∈ a ∧ it.2.1 ∈ b ∧ it.2.2.1 ∈ c ∧ it.2.2.2 ∈ d := by
  induction a generalizing b c d with
  | nil => cases b <;> cases c <;> cases d <;> simp [zip4] at h
  | cons x xs ih =>
    cases b with
    | nil => simp [zip4] at h
    | cons y ys =>
      cases c with
      | nil => simp [zip4] at h
      | cons z zs =>
        cases d with
        | nil => simp [zip4] at h
        | cons w ws =>
          simp only [zip4, List.mem_cons] at h
          rcases h with h | h
          · subst h; simp
          · have := ih ys zs ws h
            simp only [List.mem_cons]
            tauto

theorem zip4_getD (a b c d : List Int) (i : Nat)
    (hia : i < a.length)
    (hb : b.length = a.length) (hc : c.length = a.length) (hd : d.length = a.length) :
    (zip4 a b c d).getD i default = (a.getD i 0, b.getD i 0, c.getD i 0, d.getD i 0) := by
  induction a generalizing b c d i with
  | nil => simp at hia
  | cons x xs ih =>
    cases b with
    | nil => simp at hb
    | cons y ys =>
      cases c with
      | nil => simp at hc
      | cons z zs =>
        cases d with
        | nil => simp at hd
        | cons w ws =>
          cases i with
          | zero => rfl
          | succ i' =>
            simp only [zip4, List.getD_cons_succ]
            exact ih ys zs ws i' (by simpa using hia) (by simpa using hb)
              (by simpa using hc) (by simpa using hd)

theorem zip4_map_axis (a b c d : List Int) (r : Int)
    (hb : b.length = a.length) (hc : c.length = a.length) (hd : d.length = a.length) :
    (zip4 a b c d).map (fun it => (norm_axis r it.2.2.2).toNat) =
      d.map (fun ax => (norm_axis r ax).toNat) := by
  induction a generalizing b c d with
  | nil =>
    cases b <;> cases c <;> cases d <;> first | rfl | simp_all [zip4]
  | cons x xs ih =>
    cases b with
    | nil => simp at hb
    | cons y ys =>
      cases c with
      | nil => simp at hc
      | cons z zs =>
        cases d with
        | nil => simp at hd
        | cons w ws =>
          simp only [zip4, List.map_cons]
          rw [ih ys zs ws (by simpa using hb) (by simpa using hc) (by simpa using hd)]

theorem getD_map_static (dims : List Int) (j : Nat) (hj : j < dims.length) :
    (dims.map fun n => (⟨n, n⟩ : Dimension)).getD j default =
      ⟨dims.getD j 0, dims.getD j 0⟩ := by
  simp only [List.getD_eq_getElem?_getD, List.getElem?_map]
  rw [List.getElem?_eq_getElem hj]
  rfl

theorem getD_mem_int (l : List Int) (i : Nat) (hi : i < l.length) : l.getD i 0 ∈ l := by
  rw [List.getD_eq_getElem?_getD, List.getElem?_eq_getElem hi]
  exact List.getElem_mem hi

theorem sliced_output_dim_static (st sp se n : Int) :
    sliced_output_dim st sp se ⟨n, n⟩ =
      ⟨get_sliced_dim_size st sp se n, get_sliced_dim_size st sp se n⟩ := by
  simp [sliced_output_dim]

/-- Exact-model version of the static-shape slicing property: over the
idealized exact-ceiling `calculate_output_shape`, every sliced axis gets
the spec's closed-form length and every unlisted axis is unchanged.  The
double-precision model is reduced to this lemma on the domain where the
two models coincide. -/
theorem slice_static_shape_exact (starts stops steps axes dims : List Int)
    (hl2 : stops.length = starts.length) (hl3 : steps.length = starts.length)
    (hl4 : axes.length = starts.length)
    (hstep : ∀ se ∈ steps, se ≠ 0)
    (hax : ∀ ax ∈ axes, 0 ≤ norm_axis (dims.length : Int) ax ∧
      norm_axis (dims.length : Int) ax < (dims.length : Int))
    (hnd : (axes.map fun ax => (norm_axis (dims.length : Int) ax).toNat).Nodup) :
    ∃ out, calculate_output_shape starts stops steps axes
        (dims.map fun n => ⟨n, n⟩) = some out ∧
      out.length = dims.length ∧
      (∀ i, i < starts.length →
        out.getD (norm_axis (dims.length : Int) (axes.getD i 0)).toNat default =
          ⟨spec_sliced_len (starts.getD i 0) (stops.getD i 0) (steps.getD i 0)
              (dims.getD (norm_axis (dims.length : Int) (axes.getD i 0)).toNat 0),
            spec_sliced_len (starts.getD i 0) (stops.getD i 0) (steps.getD i 0)
              (dims.getD (norm_axis (dims.length : Int) (axes.getD i 0)).toNat 0)⟩) ∧
      (∀ j, j < dims.length →
        (∀ ax ∈ axes, (norm_axis (dims.length : Int) ax).toNat ≠ j) →
        out.getD j default = ⟨dims.getD j 0, dims.getD j 0⟩) := by
  have hdsl : (dims.map fun n => (⟨n, n⟩ : Dimension)).length = dims.length := by
    simp
  have hitemok : ∀ it ∈ zip4 starts stops steps axes, item_ok (dims.length : Int) it := by
    intro it hmem
    obtain ⟨_, _, hc, hd⟩ := zip4_mem _ _ _ _ _ hmem
    exact ⟨(hax _ hd).1, (hax _ hd).2, hstep _ hc⟩
  have hrun := slice_loop_eq_run (dims.map fun n => ⟨n, n⟩) (dims.length : Int)
    (zip4 starts stops steps axes) (dims.map fun n => ⟨n, n⟩) hitemok
  refine ⟨slice_loop_run (dims.map fun n => ⟨n, n⟩) (dims.length : Int)
    (zip4 starts stops steps axes) (dims.map fun n => ⟨n, n⟩), ?_, ?_, ?_, ?_⟩
  · unfold calculate_output_shape
    rw [if_pos ⟨hl2, hl3, hl4⟩, if_pos (List.Nodup.of_map _ hnd)]
    rw [hdsl]
    exact hrun
  · rw [slice_loop_run_length, hdsl]
  · intro i hi
    have hmem : axes.getD i 0 ∈ axes := getD_mem_int _ _ (by omega)
    have haxi := hax _ hmem
    have hnalt : (norm_axis (dims.length : Int) (axes.getD i 0)).toNat < dims.length := by
      omega
    have hgetD := zip4_getD starts stops steps axes i hi hl2 hl3 hl4
    have htouch := slice_loop_run_getD_touched (dims.map fun n => ⟨n, n⟩)
      (dims.length : Int) (zip4 starts stops steps axes) (dims.map fun n => ⟨n, n⟩) i
      (by rw [zip4_length starts stops steps axes hl2 hl3 hl4]; exact hi)
      (by rw [zip4_map_axis starts stops steps axes (dims.length : Int) hl2 hl3 hl4]
          exact hnd)
      (by rw [hdsl, hgetD]; exact hnalt)
    rw [hgetD] at htouch
    rw [htouch, getD_map_static _ _ hnalt, sliced_output_dim_static,
      spec_sliced_len_eq]
  · intro j hj hnot
    have huntouch := slice_loop_run_getD_untouched (dims.map fun n => ⟨n, n⟩)
      (dims.length : Int) (zip4 starts stops steps axes) (dims.map fun n => ⟨n, n⟩) j
      (fun it hit => hnot _ (zip4_mem _ _ _ _ _ hit).2.2.2)
    rw [huntouch, getD_map_static _ _ hj]

/-- Bit length of a natural number, fuel-structural: for `1 ≤ n < 2 ^ fuel`,
`blen fuel n` is the unique `e` with `2 ^ (e - 1) ≤ n < 2 ^ e`. -/
def blen : Nat → Nat → Nat
  | 0, _ => 0
  | fuel + 1, n => if n = 0 then 0 else blen fuel (n / 2) + 1

/-- Round `u / v` to the nearest integer, ties to even: the IEEE-754
default rounding applied to a scaled significand. -/
def rnd (u v : Nat) : Nat :=
  let m := u / v
  let r := u % v
  if 2 * r < v then m
  else if v < 2 * r then m + 1
  else if m % 2 = 0 then m else m + 1

/-- Conversion of a non-negative `int64_t` value to an IEEE-754 `double`
(round to nearest, ties to even): values below `2 ^ 53` convert exactly,
larger values are rounded to a multiple of `2 ^ (e - 53)` where `e` is the
bit length, so the converted value is again an integer. -/
def rn_int64 (n : Nat) : Nat :=
  if n < 2 ^ 53 then n
  else
    let e := blen 70 n
    rnd n (2 ^ (e - 53)) * 2 ^ (e - 53)

/-- `std::ceil(x / y)` for non-negative integer-valued doubles `x = a`,
`y = b`: the quotient is scaled by `2 ^ 200`, rounded to 53 significant
bits (round to nearest, ties to even — IEEE-754 division is correctly
rounded), and the exact `std::ceil` of the rounded quotient is returned.
A zero divisor cannot arise: a zero step is rejected by the validation
check before the division. -/
def ceil_rn53_div (a b : Nat) : Nat :=
  if a = 0 ∨ b = 0 then 0
  else
    let A := a * 2 ^ 200
    let e := blen 400 (A / b)
    let m := rnd A (b * 2 ^ (e - 53))
    if 253 ≤ e then m * 2 ^ (e - 253)
    else (m + 2 ^ (253 - e) - 1) / 2 ^ (253 - e)

/-- The double-precision computation on line 67 of
`src/ngraph/core/src/op/slice.cpp`:
`std::ceil(elements_in_range / std::fabs(step))`, with both `int64_t`
operands converted to `double` (round to nearest, ties to even) and the
division correctly rounded. -/
def fp_ceil_div (e s : Nat) : Nat := ceil_rn53_div (rn_int64 e) (rn_int64 s)

/-- `get_sliced_dim_size` with the ceiling computed in `double` precision
exactly as the source does (slice.cpp lines 50-69 with line 67's
`std::ceil(elements_in_range / std::fabs(step))`).  `elements_in_range`
is non-negative by construction, so its `toNat` image is faithful. -/
def get_sliced_dim_size_fp (start stop step dim_size : Int) : Int :=
  let start1 := if start < 0 then dim_size + start else start
  let stop1 := if stop < 0 then dim_size + stop else stop
  let start2 := max 0 (min start1 dim_size)
  let stop2 := max (-1) (min stop1 dim_size)
  let elements_in_range :=
    if step < 0 then max 0 (min (dim_size - 1) start2 - stop2)
    else max 0 (min dim_size stop2 - start2)
  (fp_ceil_div elements_in_range.toNat step.natAbs : Int)

/-- `sliced_output_dim` with the double-precision ceiling. -/
def sliced_output_dim_fp (st sp se : Int) (d : Dimension) : Dimension :=
  let minSize := get_sliced_dim_size_fp st sp se d.lo
  if d.lo = d.hi then
    ⟨minSize, minSize⟩
  else if d.hi = s_max ∧ ((se < 0 ∧ st < 0 ∧ 0 < sp) ∨ (0 < se ∧ sp < 0 ∧ 0 < st)) then
    ⟨0, s_max⟩
  else if d.hi = s_max ∧ (se < 0 ∧ 0 < st ∧ sp < 0) then
    ⟨0, if int32_max ≤ st then s_max else st + 1⟩
  else if d.hi = s_max ∧ (0 < se ∧ 0 < sp ∧ st < 0) then
    ⟨0, if int32_max ≤ sp then s_max else sp⟩
  else
    ⟨minSize, get_sliced_dim_size_fp st sp se d.hi⟩

/-- `slice_loop` with the double-precision ceiling. -/
def slice_loop_fp (dataShape : List Dimension) (rank : Int) :
    List (Int × Int × Int × Int) → List Dimension → Option (List Dimension)
  | [], out => some out
  | (st, sp, se, ax) :: rest, out =>
    let na := norm_axis rank ax
    if na < 0 ∨ rank ≤ na then none
    else if se = 0 then none
    else slice_loop_fp dataShape rank rest
      (out.set na.toNat (sliced_output_dim_fp st sp se (dataShape.getD na.toNat default)))

/-- `op::v8::Slice::calculate_output_shape` with the double-precision
ceiling of line 67: the direct translation of the source including its
`double` arithmetic. -/
def calculate_output_shape_fp (starts stops steps axes : List Int)
    (dataShape : List Dimension) : Option (List Dimension) :=
  if stops.length = starts.length ∧ steps.length = starts.length ∧
      axes.length = starts.length then
    if axes.Nodup then
      slice_loop_fp dataShape (dataShape.length : Int) (zip4 starts stops steps axes) dataShape
    else none
  else none

theorem blen_zero (f : Nat) : blen f 0 = 0 := by
  cases f <;> rfl

theorem blen_spec (f : Nat) : ∀ n, 1 ≤ n → n < 2 ^ f →
    1 ≤ blen f n ∧ 2 ^ (blen f n - 1) ≤ n ∧ n < 2 ^ blen f n := by
  induction f with
  | zero =>
    intro n h1 h2
    norm_num at h2
    omega
  | succ f ih =>
    intro n h1 h2
    have hne : ¬ n = 0 := by omega
    simp only [blen, if_neg hne]
    by_cases hn2 : n / 2 = 0
    · have hn1 : n = 1 := by omega
      subst hn1
      norm_num [blen_zero]
    · have hlt : n / 2 < 2 ^ f := by
        have hps : 2 ^ (f + 1) = 2 ^ f * 2 := pow_succ 2 f
        omega
      obtain ⟨hb1, hb2, hb3⟩ := ih (n / 2) (by omega) hlt
      set k := blen f (n / 2) with hk
      have hred : k + 1 - 1 = k := rfl
      rw [hred]
      have h2k : 2 ^ k = 2 * 2 ^ (k - 1) := by
        conv_lhs => rw [show k = k - 1 + 1 by omega]
        rw [pow_succ]
        ring
      have h2k1 : 2 ^ (k + 1) = 2 * 2 ^ k := by rw [pow_succ]; ring
      refine ⟨by omega, by omega, by omega⟩

theorem rnd_cases (u v : Nat) :
    (rnd u v = u / v ∧ 2 * (u % v) ≤ v) ∨ (rnd u v = u / v + 1 ∧ v ≤ 2 * (u % v)) := by
  simp only [rnd]
  split_ifs <;> first | (left; exact ⟨rfl, by omega⟩) | (right; exact ⟨rfl, by omega⟩)

theorem rnd_ge (u v : Nat) : u / v ≤ rnd u v := by
  rcases rnd_cases u v with ⟨h, _⟩ | ⟨h, _⟩ <;> omega

theorem rnd_le (u v : Nat) : rnd u v ≤ u / v + 1 := by
  rcases rnd_cases u v with ⟨h, _⟩ | ⟨h, _⟩ <;> omega

theorem rnd_dvd (u v : Nat) (hv : 1 ≤ v) (h : v ∣ u) : rnd u v = u / v := by
  have hm : u % v = 0 := Nat.mod_eq_zero_of_dvd h
  rcases rnd_cases u v with ⟨h1, _⟩ | ⟨h1, h2⟩
  · exact h1
  · rw [hm] at h2
    omega

/-- Half-ulp lower bound: twice the true value is at most twice the
rounded value plus one grid step. -/
theorem rnd_lb (u v : Nat) (hv : 1 ≤ v) : 2 * u ≤ 2 * rnd u v * v + v := by
  have hdm := Nat.div_add_mod u v
  rcases rnd_cases u v with ⟨he, hr⟩ | ⟨he, hr⟩ <;> rw [he]
  · calc 2 * u = 2 * (v * (u / v) + u % v) := by rw [hdm]
    _ = 2 * (u / v) * v + 2 * (u % v) := by ring
    _ ≤ 2 * (u / v) * v + v := Nat.add_le_add_left hr _
  · have hlt : u % v < v := Nat.mod_lt _ (by omega)
    calc 2 * u = 2 * (v * (u / v) + u % v) := by rw [hdm]
    _ = 2 * (u / v) * v + 2 * (u % v) := by ring
    _ ≤ 2 * (u / v) * v + (2 * v + v) := Nat.add_le_add_left (by omega) _
    _ = 2 * (u / v + 1) * v + v := by ring

theorem ceil_div_mul (nn D : Nat) (hD : 1 ≤ D) : (nn * D + D - 1) / D = nn := by
  have h1 : nn * D + D - 1 = (D - 1) + D * nn := by
    rw [mul_comm nn D]
    generalize D * nn = t
    omega
  rw [h1, Nat.add_mul_div_left _ _ hD, Nat.div_eq_of_lt (by omega)]
  omega

/-- On quotients of integers below `2 ^ 53`, the double-precision ceiling
is the exact integer ceiling: the grid step of the 53-bit significand is
strictly finer than the gap between the true quotient and the integer
below it. -/
theorem ceil_rn53_div_exact (a b : Nat) (ha1 : 1 ≤ a) (ha : a < 2 ^ 53)
    (hb1 : 1 ≤ b) (hb : b < 2 ^ 53) :
    ceil_rn53_div a b = (a + b - 1) / b := by
  have hb0 : 0 < b := hb1
  simp only [ceil_rn53_div]
  rw [if_neg (by omega : ¬(a = 0 ∨ b = 0))]
  set A := a * 2 ^ 200 with hA
  have hA1 : 2 ^ 200 ≤ A := by
    calc (2:ℕ) ^ 200 = 1 * 2 ^ 200 := (one_mul _).symm
    _ ≤ a * 2 ^ 200 := Nat.mul_le_mul_right _ ha1
  have hA2 : A < 2 ^ 253 := by
    calc A = a * 2 ^ 200 := hA
    _ < 2 ^ 53 * 2 ^ 200 := mul_lt_mul_of_pos_right ha (by positivity)
    _ = 2 ^ 253 := by rw [← pow_add]
  set F := A / b with hF
  have hF1 : 2 ^ 147 ≤ F := by
    rw [hF, Nat.le_div_iff_mul_le hb0]
    calc 2 ^ 147 * b ≤ 2 ^ 147 * 2 ^ 53 := Nat.mul_le_mul_left _ (by omega)
    _ = 2 ^ 200 := by rw [← pow_add]
    _ ≤ A := hA1
  have hF2 : F < 2 ^ 253 := lt_of_le_of_lt (Nat.div_le_self _ _) hA2
  obtain ⟨he1, he2, he3⟩ := blen_spec 400 F (by omega) (lt_trans hF2 (by norm_num))
  set e := blen 400 F with he
  have he4 : 148 ≤ e := by
    by_contra hcon
    push_neg at hcon
    have h' : 2 ^ e ≤ 2 ^ 147 := Nat.pow_le_pow_right (by norm_num) (by omega)
    exact absurd (lt_of_lt_of_le he3 (le_trans h' hF1)) (lt_irrefl F)
  have he5 : e ≤ 253 := by
    by_contra hcon
    push_neg at hcon
    have h' : 2 ^ 253 ≤ 2 ^ (e - 1) := Nat.pow_le_pow_right (by norm_num) (by omega)
    exact absurd (lt_of_le_of_lt (le_trans h' he2) hF2) (lt_irrefl _)
  set B := b * 2 ^ (e - 53) with hBdef
  have hB0 : 0 < B := Nat.mul_pos hb0 (by positivity)
  have hBD : B * 2 ^ (253 - e) = b * 2 ^ 200 := by
    rw [hBdef, mul_assoc, ← pow_add]
    congr 2
    omega
  set n := a / b with hn
  set r0 := a % b with hr0
  have hdm : b * n + r0 = a := Nat.div_add_mod a b
  have hr0lt : r0 < b := Nat.mod_lt _ hb0
  have hceil : (a + b - 1) / b = if r0 = 0 then n else n + 1 := by
    split_ifs with hz0
    · have hab : a + b - 1 = (b - 1) + b * n := by
        generalize b * n = t at hdm ⊢
        omega
      rw [hab, Nat.add_mul_div_left _ _ hb0, Nat.div_eq_of_lt (by omega)]
      omega
    · have hab : a + b - 1 = (r0 - 1) + b * (n + 1) := by
        have hexp : b * (n + 1) = b * n + b := by ring
        rw [hexp]
        generalize b * n = t at hdm ⊢
        omega
      rw [hab, Nat.add_mul_div_left _ _ hb0, Nat.div_eq_of_lt (by omega)]
      omega
  rw [hceil]
  have hbone253 : 253 ≤ e → b = 1 := by
    intro hbr
    have h1 : 2 ^ 252 * b ≤ A := by
      have h2 := he2
      rw [hF, Nat.le_div_iff_mul_le hb0] at h2
      have h252 : (252:ℕ) = e - 1 := by omega
      rw [h252]
      exact h2
    by_contra hcon
    have hb2 : 2 ≤ b := by omega
    have hcon2 : 2 ^ 252 * 2 ≤ 2 ^ 252 * b := Nat.mul_le_mul_left _ hb2
    have he' : 2 ^ 252 * 2 = 2 ^ 253 := by rw [← pow_succ]
    have h5 : 2 ^ 253 ≤ A := by
      rw [← he']
      exact le_trans hcon2 h1
    exact absurd hA2 (not_lt.mpr h5)
  by_cases hz : r0 = 0
  · rw [if_pos hz]
    have haeq : a = b * n := by omega
    by_cases hbr : 253 ≤ e
    · have he253 : e = 253 := by omega
      rw [if_pos hbr]
      have hbone : b = 1 := hbone253 hbr
      have hn_a : n = a := by rw [hn, hbone, Nat.div_one]
      have hBeq : B = 2 ^ 200 := by
        rw [hBdef, hbone, one_mul]
        congr 1
        omega
      have hdvd : B ∣ A := ⟨a, by rw [hA, hBeq]; ring⟩
      rw [rnd_dvd _ _ hB0 hdvd, hBeq, hA, Nat.mul_div_cancel _ (by positivity),
        he253, Nat.sub_self, pow_zero, mul_one, hn_a]
    · rw [if_neg hbr]
      push_neg at hbr
      set D := 2 ^ (253 - e) with hD
      have hD1 : 1 ≤ D := by rw [hD]; exact Nat.one_le_two_pow
      have hAeq : A = (n * D) * B := by
        rw [hA, haeq]
        calc b * n * 2 ^ 200 = n * (b * 2 ^ 200) := by ring
        _ = n * (B * D) := by rw [hBD]
        _ = n * D * B := by ring
      have hdvd : B ∣ A := ⟨n * D, by rw [hAeq]; ring⟩
      rw [rnd_dvd _ _ hB0 hdvd, hAeq, Nat.mul_div_cancel _ hB0]
      exact ceil_div_mul n D hD1
  · rw [if_neg hz]
    have hr01 : 1 ≤ r0 := by omega
    have hbr : ¬ 253 ≤ e := by
      intro hbr
      have hbone : b = 1 := hbone253 hbr
      have hzz : r0 = 0 := by rw [hr0, hbone, Nat.mod_one]
      exact hz hzz
    rw [if_neg hbr]
    push_neg at hbr
    set D := 2 ^ (253 - e) with hD
    have hD1 : 1 ≤ D := by rw [hD]; exact Nat.one_le_two_pow
    set m := rnd A B with hm
    have hub : m ≤ (n + 1) * D := by
      have hlt : a < (n + 1) * b := by nlinarith [hdm, hr0lt]
      have h1 : A < ((n + 1) * D) * B := by
        calc A = a * 2 ^ 200 := hA
        _ < ((n + 1) * b) * 2 ^ 200 := mul_lt_mul_of_pos_right hlt (by positivity)
        _ = (n + 1) * (b * 2 ^ 200) := by ring
        _ = (n + 1) * (B * D) := by rw [hBD]
        _ = ((n + 1) * D) * B := by ring
      have h2 : A / B < (n + 1) * D := (Nat.div_lt_iff_lt_mul hB0).mpr h1
      exact le_trans (rnd_le A B) h2
    have hlb : n * D < m := by
      have hBub : B < 2 ^ 201 := by
        by_cases hee : e ≤ 201
        · calc B = b * 2 ^ (e - 53) := hBdef
          _ < 2 ^ 53 * 2 ^ (e - 53) := mul_lt_mul_of_pos_right hb (by positivity)
          _ = 2 ^ (53 + (e - 53)) := by rw [pow_add]
          _ ≤ 2 ^ 201 := Nat.pow_le_pow_right (by norm_num) (by omega)
        · push_neg at hee
          have h1 : b * 2 ^ (e - 1) ≤ A := by
            calc b * 2 ^ (e - 1) ≤ b * F := Nat.mul_le_mul_left _ he2
            _ ≤ A := by
              rw [hF, mul_comm]
              exact Nat.div_mul_le_self A b
          have h3 : b < 2 ^ (254 - e) := by
            by_contra hcon
            push_neg at hcon
            have h4 : 2 ^ (254 - e) * 2 ^ (e - 1) ≤ b * 2 ^ (e - 1) :=
              Nat.mul_le_mul_right _ hcon
            rw [← pow_add] at h4
            have h5 : 254 - e + (e - 1) = 253 := by omega
            rw [h5] at h4
            exact absurd hA2 (not_lt.mpr (le_trans h4 h1))
          calc B = b * 2 ^ (e - 53) := hBdef
          _ < 2 ^ (254 - e) * 2 ^ (e - 53) := mul_lt_mul_of_pos_right h3 (by positivity)
          _ = 2 ^ (254 - e + (e - 53)) := by rw [pow_add]
          _ = 2 ^ 201 := by congr 1; omega
      have hAlb : n * D * B + 2 ^ 200 ≤ A := by
        calc n * D * B + 2 ^ 200 = n * (B * D) + 2 ^ 200 := by ring
        _ = n * (b * 2 ^ 200) + 2 ^ 200 := by rw [hBD]
        _ = (b * n + 1) * 2 ^ 200 := by ring
        _ ≤ (b * n + r0) * 2 ^ 200 := Nat.mul_le_mul_right _ (by omega)
        _ = a * 2 ^ 200 := by rw [hdm]
        _ = A := hA.symm
      have hr := rnd_lb A B hB0
      have hpow : (2:ℕ) ^ 201 = 2 * 2 ^ 200 := by rw [pow_succ]; ring
      have hmul : n * D * B < m * B := by nlinarith [hr, hAlb, hBub, hpow]
      exact lt_of_mul_lt_mul_right hmul (Nat.zero_le B)
    have hprod : (n + 1) * D = n * D + D := by ring
    rw [hprod] at hub
    apply Nat.div_eq_of_lt_le
    · have hgen : n * D + D ≤ m + D - 1 := by
        generalize n * D = ND at hlb ⊢
        omega
      calc (n + 1) * D = n * D + D := by ring
      _ ≤ m + D - 1 := hgen
    · have hprod2 : (n + 1 + 1) * D = n * D + D + D := by ring
      rw [hprod2]
      generalize n * D = ND at hub ⊢
      omega

/-- When the divisor is at least `2 ^ 53` and the dividend below it, the
double-precision ceiling is `1`: the rounded quotient lies in `(0, 1]`. -/
theorem ceil_rn53_div_small (a b : Nat) (ha1 : 1 ≤ a) (ha : a < 2 ^ 53)
    (hb53 : 2 ^ 53 ≤ b) (hb64 : b ≤ 2 ^ 64) :
    ceil_rn53_div a b = 1 := by
  have hb0 : 0 < b := lt_of_lt_of_le (by norm_num) hb53
  simp only [ceil_rn53_div]
  rw [if_neg (by omega : ¬(a = 0 ∨ b = 0))]
  set A := a * 2 ^ 200 with hA
  have hA1 : 2 ^ 200 ≤ A := by
    calc (2:ℕ) ^ 200 = 1 * 2 ^ 200 := (one_mul _).symm
    _ ≤ a * 2 ^ 200 := Nat.mul_le_mul_right _ ha1
  have hA2 : A < 2 ^ 253 := by
    calc A = a * 2 ^ 200 := hA
    _ < 2 ^ 53 * 2 ^ 200 := mul_lt_mul_of_pos_right ha (by positivity)
    _ = 2 ^ 253 := by rw [← pow_add]
  set F := A / b with hF
  have hF1 : 2 ^ 136 ≤ F := by
    rw [hF, Nat.le_div_iff_mul_le hb0]
    calc 2 ^ 136 * b ≤ 2 ^ 136 * 2 ^ 64 := Nat.mul_le_mul_left _ hb64
    _ = 2 ^ 200 := by rw [← pow_add]
    _ ≤ A := hA1
  have hF2 : F < 2 ^ 200 := by
    rw [hF, Nat.div_lt_iff_lt_mul hb0]
    calc A < 2 ^ 253 := hA2
    _ = 2 ^ 53 * 2 ^ 200 := by rw [← pow_add]
    _ ≤ b * 2 ^ 200 := Nat.mul_le_mul_right _ hb53
    _ = 2 ^ 200 * b := by ring
  obtain ⟨he1, he2, he3⟩ := blen_spec 400 F (by omega) (lt_trans hF2 (by norm_num))
  set e := blen 400 F with he
  have he4 : 137 ≤ e := by
    by_contra hcon
    push_neg at hcon
    have h' : 2 ^ e ≤ 2 ^ 136 := Nat.pow_le_pow_right (by norm_num) (by omega)
    exact absurd (lt_of_lt_of_le he3 (le_trans h' hF1)) (lt_irrefl F)
  have he5 : e ≤ 200 := by
    by_contra hcon
    push_neg at hcon
    have h' : 2 ^ 200 ≤ 2 ^ (e - 1) := Nat.pow_le_pow_right (by norm_num) (by omega)
    exact absurd (lt_of_le_of_lt (le_trans h' he2) hF2) (lt_irrefl _)
  rw [if_neg (by omega : ¬ 253 ≤ e)]
  set B := b * 2 ^ (e - 53) with hBdef
  have hB0 : 0 < B := Nat.mul_pos hb0 (by positivity)
  have hBD : B * 2 ^ (253 - e) = b * 2 ^ 200 := by
    rw [hBdef, mul_assoc, ← pow_add]
    congr 2
    omega
  set D := 2 ^ (253 - e) with hD
  have hD1 : 1 ≤ D := by rw [hD]; exact Nat.one_le_two_pow
  set m := rnd A B with hm
  have hm1 : 1 ≤ m := by
    have h1 : 2 ^ 52 * B ≤ A := by
      calc 2 ^ 52 * B = 2 ^ 52 * 2 ^ (e - 53) * b := by rw [hBdef]; ring
      _ = 2 ^ (e - 1) * b := by
        rw [← pow_add]
        congr 2
        omega
      _ = b * 2 ^ (e - 1) := by ring
      _ ≤ b * F := Nat.mul_le_mul_left _ he2
      _ ≤ A := by
        rw [hF, mul_comm]
        exact Nat.div_mul_le_self A b
    have h2 : 2 ^ 52 ≤ A / B := (Nat.le_div_iff_mul_le hB0).mpr h1
    calc (1:ℕ) ≤ 2 ^ 52 := by norm_num
    _ ≤ A / B := h2
    _ ≤ m := rnd_ge A B
  have hmD : m ≤ D := by
    have h1 : A < D * B := by
      calc A = a * 2 ^ 200 := hA
      _ < 2 ^ 53 * 2 ^ 200 := mul_lt_mul_of_pos_right ha (by positivity)
      _ ≤ b * 2 ^ 200 := Nat.mul_le_mul_right _ hb53
      _ = B * D := hBD.symm
      _ = D * B := by ring
    have h2 : A / B < D := (Nat.div_lt_iff_lt_mul hB0).mpr h1
    exact le_trans (rnd_le A B) h2
  apply Nat.div_eq_of_lt_le
  · omega
  · omega

theorem rn_int64_small (n : Nat) (h : n < 2 ^ 53) : rn_int64 n = n := by
  simp only [rn_int64]
  rw [if_pos h]

/-- The converted `double` of an `int64_t` in `[2 ^ 53, 2 ^ 64)` stays in
`[2 ^ 53, 2 ^ 64]`. -/
theorem rn_int64_big (n : Nat) (h1 : 2 ^ 53 ≤ n) (h2 : n < 2 ^ 64) :
    2 ^ 53 ≤ rn_int64 n ∧ rn_int64 n ≤ 2 ^ 64 := by
  simp only [rn_int64, if_neg (by omega : ¬ n < 2 ^ 53)]
  obtain ⟨he1, he2, he3⟩ := blen_spec 70 n (by omega) (lt_trans h2 (by norm_num))
  set e := blen 70 n with he
  have he4 : 54 ≤ e := by
    by_contra hcon
    push_neg at hcon
    have h' : 2 ^ e ≤ 2 ^ 53 := Nat.pow_le_pow_right (by norm_num) (by omega)
    exact absurd (lt_of_lt_of_le he3 (le_trans h' h1)) (lt_irrefl n)
  have he5 : e ≤ 64 := by
    by_contra hcon
    push_neg at hcon
    have h' : 2 ^ 64 ≤ 2 ^ (e - 1) := Nat.pow_le_pow_right (by norm_num) (by omega)
    exact absurd (lt_of_le_of_lt (le_trans h' he2) h2) (lt_irrefl _)
  set g := e - 53 with hg
  have hg0 : 0 < 2 ^ g := by positivity
  constructor
  · have h3 : 2 ^ 52 ≤ n / 2 ^ g := by
      rw [Nat.le_div_iff_mul_le hg0, ← pow_add]
      calc 2 ^ (52 + g) = 2 ^ (e - 1) := by congr 1; omega
      _ ≤ n := he2
    have h4 : 2 ^ 52 ≤ rnd n (2 ^ g) := le_trans h3 (rnd_ge _ _)
    calc (2:ℕ) ^ 53 ≤ 2 ^ (e - 1) := Nat.pow_le_pow_right (by norm_num) (by omega)
    _ = 2 ^ 52 * 2 ^ g := by rw [← pow_add]; congr 1; omega
    _ ≤ rnd n (2 ^ g) * 2 ^ g := Nat.mul_le_mul_right _ h4
  · have h3 : n / 2 ^ g < 2 ^ 53 := by
      rw [Nat.div_lt_iff_lt_mul hg0]
      calc n < 2 ^ e := he3
      _ = 2 ^ (53 + g) := by congr 1; omega
      _ = 2 ^ 53 * 2 ^ g := by rw [pow_add]
    have h4 : rnd n (2 ^ g) ≤ 2 ^ 53 := le_trans (rnd_le _ _) h3
    calc rnd n (2 ^ g) * 2 ^ g ≤ 2 ^ 53 * 2 ^ g := Nat.mul_le_mul_right _ h4
    _ = 2 ^ (53 + g) := by rw [← pow_add]
    _ = 2 ^ e := by congr 1; omega
    _ ≤ 2 ^ 64 := Nat.pow_le_pow_right (by norm_num) he5

/-- On a numerator below `2 ^ 53` and an `int64_t` denominator, the
double-precision ceiling computed by the source equals the exact integer
ceiling `ceil_div`. -/
theorem fp_ceil_div_exact (e s : Nat) (he : e < 2 ^ 53) (hs1 : 1 ≤ s) (hs : s ≤ 2 ^ 63) :
    (fp_ceil_div e s : Int) = ceil_div (e : Int) (s : Int) := by
  rcases Nat.eq_zero_or_pos e with he0 | he1
  · subst he0
    have hL : fp_ceil_div 0 s = 0 := by
      rw [fp_ceil_div, rn_int64_small 0 (by norm_num)]
      simp [ceil_rn53_div]
    rw [hL]
    simp only [Nat.cast_zero, ceil_div, zero_add]
    symm
    exact Int.ediv_eq_zero_of_lt (by omega) (by omega)
  · have hrn_e : rn_int64 e = e := rn_int64_small e he
    by_cases hsb : s < 2 ^ 53
    · have hL : fp_ceil_div e s = (e + s - 1) / s := by
        rw [fp_ceil_div, hrn_e, rn_int64_small s hsb]
        exact ceil_rn53_div_exact e s he1 he hs1 hsb
      rw [hL, ceil_div, Int.natCast_div]
      congr 1
      omega
    · push_neg at hsb
      obtain ⟨hb53, hb64⟩ := rn_int64_big s hsb (lt_of_le_of_lt hs (by norm_num))
      have hL : fp_ceil_div e s = 1 := by
        rw [fp_ceil_div, hrn_e]
        exact ceil_rn53_div_small e (rn_int64 s) he1 he hb53 hb64
      rw [hL]
      have hes : e < s := lt_of_lt_of_le he hsb
      simp only [Nat.cast_one, ceil_div]
      have hsplit : (e:ℤ) + (s:ℤ) - 1 = ((e:ℤ) - 1) + (s:ℤ) * 1 := by ring
      rw [hsplit, Int.add_mul_ediv_left _ _ (by omega : (s:ℤ) ≠ 0),
        Int.ediv_eq_zero_of_lt (by omega) (by omega)]
      norm_num

theorem fp_ceil_div_eq_ceil_div (E se : Int) (hE0 : 0 ≤ E) (hE : E < 2 ^ 53)
    (hse : se ≠ 0) (hsea : se.natAbs ≤ 2 ^ 63) :
    (fp_ceil_div E.toNat se.natAbs : Int) = ceil_div E |se| := by
  have hpi : (2:Int) ^ 53 = 9007199254740992 := by norm_num
  have hpn : (2:Nat) ^ 53 = 9007199254740992 := by norm_num
  have h1 : E.toNat < 2 ^ 53 := by omega
  have h2 : 1 ≤ se.natAbs := by omega
  rw [fp_ceil_div_exact E.toNat se.natAbs h1 h2 hsea, Int.toNat_of_nonneg hE0,
    Int.natCast_natAbs]

/-- The two models of `get_sliced_dim_size` agree when the dimension size
is below `2 ^ 53` and the step fits an `int64_t`: the element count is
clipped into `[0, dim_size]`, where the double computation is exact. -/
theorem get_sliced_dim_size_fp_eq (st sp se d : Int) (hd0 : 0 ≤ d)
    (hd : d < 2 ^ 53) (hse : se ≠ 0) (hsea : se.natAbs ≤ 2 ^ 63) :
    get_sliced_dim_size_fp st sp se d = get_sliced_dim_size st sp se d := by
  simp only [get_sliced_dim_size_fp, get_sliced_dim_size]
  have hpi : (2:Int) ^ 53 = 9007199254740992 := by norm_num
  split_ifs with h1 h2 h3 <;>
    exact fp_ceil_div_eq_ceil_div _ se (by omega) (by omega) hse hsea

theorem getD_bounds53 (ds : List Dimension) (j : Nat)
    (hds : ∀ d ∈ ds, 0 ≤ d.lo ∧ d.lo < 2 ^ 53 ∧ 0 ≤ d.hi ∧ d.hi < 2 ^ 53) :
    0 ≤ (ds.getD j default).lo ∧ (ds.getD j default).lo < 2 ^ 53 ∧
      0 ≤ (ds.getD j default).hi ∧ (ds.getD j default).hi < 2 ^ 53 := by
  by_cases hj : j < ds.length
  · rw [List.getD_eq_getElem?_getD, List.getElem?_eq_getElem hj]
    exact hds _ (List.getElem_mem hj)
  · rw [List.getD_eq_getElem?_getD, List.getElem?_eq_none (by omega)]
    exact ⟨le_refl 0, by decide, le_refl 0, by decide⟩

theorem sliced_output_dim_fp_eq (st sp se : Int) (d : Dimension) (hse : se ≠ 0)
    (hsea : se.natAbs ≤ 2 ^ 63)
    (hlo0 : 0 ≤ d.lo) (hlo : d.lo < 2 ^ 53) (hhi0 : 0 ≤ d.hi) (hhi : d.hi < 2 ^ 53) :
    sliced_output_dim_fp st sp se d = sliced_output_dim st sp se d := by
  simp only [sliced_output_dim_fp, sliced_output_dim,
    get_sliced_dim_size_fp_eq st sp se d.lo hlo0 hlo hse hsea,
    get_sliced_dim_size_fp_eq st sp se d.hi hhi0 hhi hse hsea]

theorem slice_loop_fp_eq (ds : List Dimension) (rank : Int)
    (items : List (Int × Int × Int × Int)) (out : List Dimension)
    (hds : ∀ d ∈ ds, 0 ≤ d.lo ∧ d.lo < 2 ^ 53 ∧ 0 ≤ d.hi ∧ d.hi < 2 ^ 53)
    (hit : ∀ it ∈ items, (it.2.2.1).natAbs ≤ 2 ^ 63) :
    slice_loop_fp ds rank items out = slice_loop ds rank items out := by
  induction items generalizing out with
  | nil => rfl
  | cons it rest ih =>
    obtain ⟨st, sp, se, ax⟩ := it
    simp only [slice_loop_fp, slice_loop]
    split_ifs with h1 h2
    · rfl
    · rfl
    · have hb := getD_bounds53 ds (norm_axis rank ax).toNat hds
      rw [sliced_output_dim_fp_eq st sp se _ h2 (hit _ (List.mem_cons_self _ _))
        hb.1 hb.2.1 hb.2.2.1 hb.2.2.2]
      exact ih _ (fun x hx => hit x (List.mem_cons_of_mem _ hx))

/-- `calculate_output_shape` and its double-precision counterpart agree
whenever every dimension bound of the data shape is in `[0, 2 ^ 53)` and
every step fits an `int64_t`. -/
theorem calculate_output_shape_fp_eq (starts stops steps axes : List Int)
    (ds : List Dimension)
    (hds : ∀ d ∈ ds, 0 ≤ d.lo ∧ d.lo < 2 ^ 53 ∧ 0 ≤ d.hi ∧ d.hi < 2 ^ 53)
    (hsteps : ∀ se ∈ steps, se.natAbs ≤ 2 ^ 63) :
    calculate_output_shape_fp starts stops steps axes ds =
      calculate_output_shape starts stops steps axes ds := by
  simp only [calculate_output_shape_fp, calculate_output_shape]
  split_ifs with h1 h2
  · exact slice_loop_fp_eq ds _ _ ds hds
      (fun it hit => hsteps _ (zip4_mem _ _ _ _ _ hit).2.2.1)
  · rfl
  · rfl

set_option maxRecDepth 100000 in
/-- C1 counterexample: slicing the static dimension `2 ^ 53 + 1` with
`start = 0`, `stop = 2 ^ 53 + 1`, `step = 1`.  The spec's closed-form
formula gives `ceil((2 ^ 53 + 1) / 1) = 2 ^ 53 + 1`, but the program
converts the `int64_t` element count `2 ^ 53 + 1` to `double`, which
rounds to `2 ^ 53` (round to nearest, ties to even), so
`calculate_output_shape` returns the static dimension `2 ^ 53` instead. -/
theorem C1_counterexample :
    calculate_output_shape_fp [0] [9007199254740993] [1] [0]
        [⟨9007199254740993, 9007199254740993⟩] =
      some [⟨9007199254740992, 9007199254740992⟩] ∧
    spec_sliced_len 0 9007199254740993 1 9007199254740993 = 9007199254740993 ∧
    (9007199254740992 : Int) ≠ 9007199254740993 :=
  ⟨by decide, by decide, by decide⟩

/-- C1 (amended): for a Slice node whose data shape is statically known
with every dimension size below `2 ^ 53` and whose start, stop, step, axes
inputs are constants with nonzero `int64_t` steps and in-range, mutually
distinct normalized axes, `calculate_output_shape` (with the
double-precision ceiling of the source) succeeds and gives every sliced
axis the static length computed by the spec's closed-form formula (clip
after negative normalization, count, `ceil(count / abs step)`), while
every axis not listed keeps its input dimension unchanged; at dimension
sizes of `2 ^ 53` and above the double rounding can diverge from the
formula, as the counterexample shows. -/
theorem C1_slice_static_shape_bounded (starts stops steps axes dims : List Int)
    (hl2 : stops.length = starts.length) (hl3 : steps.length = starts.length)
    (hl4 : axes.length = starts.length)
    (hstep : ∀ se ∈ steps, se ≠ 0 ∧ se.natAbs ≤ 2 ^ 63)
    (hax : ∀ ax ∈ axes, 0 ≤ norm_axis (dims.length : Int) ax ∧
      norm_axis (dims.length : Int) ax < (dims.length : Int))
    (hnd : (axes.map fun ax => (norm_axis (dims.length : Int) ax).toNat).Nodup)
    (hdims : ∀ n ∈ dims, 0 ≤ n ∧ n < 2 ^ 53) :
    ∃ out, calculate_output_shape_fp starts stops steps axes
        (dims.map fun n => ⟨n, n⟩) = some out ∧
      out.length = dims.length ∧
      (∀ i, i < starts.length →
        out.getD (norm_axis (dims.length : Int) (axes.getD i 0)).toNat default =
          ⟨spec_sliced_len (starts.getD i 0) (stops.getD i 0) (steps.getD i 0)
              (dims.getD (norm_axis (dims.length : Int) (axes.getD i 0)).toNat 0),
            spec_sliced_len (starts.getD i 0) (stops.getD i 0) (steps.getD i 0)
              (dims.getD (norm_axis (dims.length : Int) (axes.getD i 0)).toNat 0)⟩) ∧
      (∀ j, j < dims.length →
        (∀ ax ∈ axes, (norm_axis (dims.length : Int) ax).toNat ≠ j) →
        out.getD j default = ⟨dims.getD j 0, dims.getD j 0⟩) := by
  rw [calculate_output_shape_fp_eq starts stops steps axes _
    (by
      intro d hd
      simp only [List.mem_map] at hd
      obtain ⟨n, hn, rfl⟩ := hd
      obtain ⟨hn1, hn2⟩ := hdims n hn
      exact ⟨hn1, hn2, hn1, hn2⟩)
    (fun se hse => (hstep se hse).2)]
  exact slice_static_shape_exact starts stops steps axes dims hl2 hl3 hl4
    (fun se hse => (hstep se hse).1) hax hnd

/-- Witness for the amended C1 at a concrete input: data shape
`[5, 4, 7]`, slicing axis 0 with `1:10:2` and axis 2 with `-2:0:-1`. -/
theorem C1_slice_static_shape_bounded_witness :
    ∃ out, calculate_output_shape_fp [1, -2] [10, 0] [2, -1] [0, 2]
        ([5, 4, 7].map fun n => ⟨n, n⟩) = some out ∧
      out.length = ([5, 4, 7] : List Int).length ∧
      (∀ i, i < ([1, -2] : List Int).length →
        out.getD (norm_axis (([5, 4, 7] : List Int).length : Int)
            (([0, 2] : List Int).getD i 0)).toNat default =
          ⟨spec_sliced_len (([1, -2] : List Int).getD i 0)
              (([10, 0] : List Int).getD i 0) (([2, -1] : List Int).getD i 0)
              (([5, 4, 7] : List Int).getD
                (norm_axis (([5, 4, 7] : List Int).length : Int)
                  (([0, 2] : List Int).getD i 0)).toNat 0),
            spec_sliced_len (([1, -2] : List Int).getD i 0)
              (([10, 0] : List Int).getD i 0) (([2, -1] : List Int).getD i 0)
              (([5, 4, 7] : List Int).getD
                (norm_axis (([5, 4, 7] : List Int).length : Int)
                  (([0, 2] : List Int).getD i 0)).toNat 0)⟩) ∧
      (∀ j, j < ([5, 4, 7] : List Int).length →
        (∀ ax ∈ ([0, 2] : List Int),
          (norm_axis (([5, 4, 7] : List Int).length : Int) ax).toNat ≠ j) →
        out.getD j default = ⟨([5, 4, 7] : List Int).getD j 0,
          ([5, 4, 7] : List Int).getD j 0⟩) :=
  C1_slice_static_shape_bounded [1, -2] [10, 0] [2, -1] [0, 2] [5, 4, 7]
    (by decide) (by decide) (by decide) (by decide) (by decide) (by decide)
    (by decide)

theorem calc_singleton (st sp se lo hi : Int) (hse : se ≠ 0) :
    calculate_output_shape [st] [sp] [se] [0] [⟨lo, hi⟩] =
      some [sliced_output_dim st sp se ⟨lo, hi⟩] := by
  simp [calculate_output_shape, slice_loop, zip4, norm_axis, hse]

/-- C4 counterexample: with an unbounded axis, negative start `-1`,
positive stop `INT32_MAX` and positive step, `calculate_output_shape`
saturates the upper bound to `INT64_MAX` (a fully dynamic dimension)
instead of producing `[0, stop]` as the claim states. -/
theorem C4_counterexample :
    calculate_output_shape [-1] [2147483647] [1] [0] [⟨0, s_max⟩] =
        some [⟨0, s_max⟩] ∧
      (⟨0, s_max⟩ : Dimension) ≠ ⟨0, 2147483647⟩ := by
  exact ⟨by decide, by decide⟩

/-- C4 (amended): for a sliced axis with no static upper bound and
constant start/stop/step, a negative start with positive stop under
positive step yields `[0, stop]` provided `stop < INT32_MAX` (and the
fully dynamic `[0, INT64_MAX]` once `stop ≥ INT32_MAX`); a positive start
with negative stop under negative step yields `[0, start+1]` provided
`start < INT32_MAX` (saturating likewise); the remaining mixed-sign
combinations yield a fully dynamic dimension. -/
theorem C4_unbounded_axis_mixed_signs (st sp se lo : Int)
    (hlo : 0 ≤ lo) (hlos : lo ≠ s_max) :
    (0 < se → st < 0 → 0 < sp → sp < int32_max →
      calculate_output_shape [st] [sp] [se] [0] [⟨lo, s_max⟩] = some [⟨0, sp⟩]) ∧
    (0 < se → st < 0 → 0 < sp → int32_max ≤ sp →
      calculate_output_shape [st] [sp] [se] [0] [⟨lo, s_max⟩] = some [⟨0, s_max⟩]) ∧
    (se < 0 → 0 < st → sp < 0 → st < int32_max →
      calculate_output_shape [st] [sp] [se] [0] [⟨lo, s_max⟩] = some [⟨0, st + 1⟩]) ∧
    (se < 0 → 0 < st → sp < 0 → int32_max ≤ st →
      calculate_output_shape [st] [sp] [se] [0] [⟨lo, s_max⟩] = some [⟨0, s_max⟩]) ∧
    (se < 0 → st < 0 → 0 < sp →
      calculate_output_shape [st] [sp] [se] [0] [⟨lo, s_max⟩] = some [⟨0, s_max⟩]) ∧
    (0 < se → 0 < st → sp < 0 →
      calculate_output_shape [st] [sp] [se] [0] [⟨lo, s_max⟩] = some [⟨0, s_max⟩]) := by
  refine ⟨?_, ?_, ?_, ?_, ?_, ?_⟩ <;>
    first
    | (intro h1 h2 h3 h4
       rw [calc_singleton st sp se lo s_max (by omega)]
       simp only [sliced_output_dim]
       split_ifs <;> first | rfl | (exfalso; omega) | (exfalso; simp_all))
    | (intro h1 h2 h3
       rw [calc_singleton st sp se lo s_max (by omega)]
       simp only [sliced_output_dim]
       split_ifs <;> first | rfl | (exfalso; omega) | (exfalso; simp_all))

/-- Witness for the amended C4 at concrete inputs: slice `-2:5:1` over an
axis with unknown upper bound gives the dynamic dimension `[0, 5]`. -/
theorem C4_unbounded_axis_mixed_signs_witness :
    calculate_output_shape [-2] [5] [1] [0] [⟨0, s_max⟩] = some [⟨0, 5⟩] :=
  (C4_unbounded_axis_mixed_signs (-2) 5 1 0 (by decide) (by decide)).1
    (by decide) (by decide) (by decide) (by decide)

theorem get_sliced_dim_size_mono (st sp se d1 d2 : Int)
    (hst : 0 ≤ st) (hsp : 0 ≤ sp) (hse : se ≠ 0) (h1 : 0 ≤ d1) (h12 : d1 ≤ d2) :
    get_sliced_dim_size st sp se d1 ≤ get_sliced_dim_size st sp se d2 := by
  have habs : 0 < |se| := abs_pos.mpr hse
  simp only [get_sliced_dim_size, ceil_div]
  rw [if_neg (not_lt.mpr hst), if_neg (not_lt.mpr hsp), if_neg (not_lt.mpr hst),
    if_neg (not_lt.mpr hsp)]
  obtain ⟨a, ha⟩ : ∃ a, |se| = a := ⟨_, rfl⟩
  rw [ha] at habs ⊢
  rcases lt_or_ge se 0 with hneg | hpos
  · rw [if_pos hneg, if_pos hneg]
    exact Int.ediv_le_ediv habs (by omega)
  · rw [if_neg (not_lt.mpr hpos), if_neg (not_lt.mpr hpos)]
    exact Int.ediv_le_ediv habs (by omega)

theorem sliced_output_dim_wf (st sp se : Int) (d : Dimension)
    (hst : 0 ≤ st) (hsp : 0 ≤ sp) (hse : se ≠ 0)
    (hd : 0 ≤ d.lo ∧ d.lo ≤ d.hi) :
    (sliced_output_dim st sp se d).well_formed := by
  unfold sliced_output_dim Dimension.well_formed
  split
  · exact le_refl _
  · split
    · norm_num [s_max]
    · split
      · split
        · norm_num [s_max]
        · have : 0 < st := by
            rename_i hcond _
            exact hcond.2.2.1
          omega
      · split
        · split
          · norm_num [s_max]
          · have : 0 < sp := by
              rename_i hcond _
              exact hcond.2.2.1
            omega
        · exact get_sliced_dim_size_mono st sp se d.lo d.hi hst hsp hse hd.1 hd.2

theorem getD_bounds (ds : List Dimension) (j : Nat)
    (hds : ∀ d ∈ ds, 0 ≤ d.lo ∧ d.lo ≤ d.hi) :
    0 ≤ (ds.getD j default).lo ∧ (ds.getD j default).lo ≤ (ds.getD j default).hi := by
  by_cases hj : j < ds.length
  · rw [List.getD_eq_getElem?_getD, List.getElem?_eq_getElem hj]
    exact hds _ (List.getElem_mem hj)
  · rw [List.getD_eq_getElem?_getD, List.getElem?_eq_none (by omega)]
    exact ⟨le_refl 0, le_refl 0⟩

theorem slice_loop_well_formed (ds : List Dimension) (rank : Int)
    (items : List (Int × Int × Int × Int)) (out res : List Dimension)
    (hit : ∀ it ∈ items, 0 ≤ it.1 ∧ 0 ≤ it.2.1)
    (hds : ∀ d ∈ ds, 0 ≤ d.lo ∧ d.lo ≤ d.hi)
    (hout : ∀ d ∈ out, d.well_formed)
    (h : slice_loop ds rank items out = some res) :
    ∀ d ∈ res, d.well_formed := by
  induction items generalizing out with
  | nil =>
    simp only [slice_loop] at h
    exact (Option.some.inj h) ▸ hout
  | cons it rest ih =>
    obtain ⟨st, sp, se, ax⟩ := it
    simp only [slice_loop] at h
    by_cases hr : (norm_axis rank ax < 0 ∨ rank ≤ norm_axis rank ax)
    · rw [if_pos hr] at h; cases h
    rw [if_neg hr] at h
    by_cases hse : se = 0
    · rw [if_pos hse] at h; cases h
    rw [if_neg hse] at h
    refine ih _ (fun x hx => hit x (List.mem_cons_of_mem _ hx)) ?_ h
    intro d hd
    rcases List.mem_or_eq_of_mem_set hd with hmem | heq
    · exact hout _ hmem
    · rw [heq]
      exact sliced_output_dim_wf st sp se _ (hit _ (List.mem_cons_self _ _)).1
        (hit _ (List.mem_cons_self _ _)).2 hse (getD_bounds ds _ hds)

/-- C5 counterexample: slicing the interval dimension `[3, 10]` with
`start = -1, stop = 5, step = 1` produces the output dimension `[1, 0]`,
whose minimum exceeds its maximum, refuting the claimed invariant. -/
theorem C5_counterexample :
    calculate_output_shape [-1] [5] [1] [0] [⟨3, 10⟩] = some [⟨1, 0⟩] ∧
      ¬(⟨1, 0⟩ : Dimension).well_formed :=
  ⟨by decide, by decide⟩

/-- C5 (amended): for constant start/stop/step/axes with non-negative
start and stop values and a well-formed bounded data shape, every output
dimension of `calculate_output_shape` is well-formed (`min ≤ max`); with a
negative start or stop, the interval endpoints can produce an inverted
dimension, as the counterexample shows. -/
theorem C5_nonneg_indices_well_formed (starts stops steps axes : List Int)
    (dataShape out : List Dimension)
    (hst : ∀ st ∈ starts, 0 ≤ st) (hsp : ∀ sp ∈ stops, 0 ≤ sp)
    (hds : ∀ d ∈ dataShape, 0 ≤ d.lo ∧ d.lo ≤ d.hi)
    (hcalc : calculate_output_shape starts stops steps axes dataShape = some out) :
    ∀ d ∈ out, d.well_formed := by
  unfold calculate_output_shape at hcalc
  by_cases h1 : stops.length = starts.length ∧ steps.length = starts.length ∧
      axes.length = starts.length
  · rw [if_pos h1] at hcalc
    by_cases h2 : axes.Nodup
    · rw [if_pos h2] at hcalc
      refine slice_loop_well_formed _ _ _ _ _ ?_ hds (fun d hd => (hds d hd).2) hcalc
      intro it hmem
      obtain ⟨ha, hb, _, _⟩ := zip4_mem _ _ _ _ _ hmem
      exact ⟨hst _ ha, hsp _ hb⟩
    · rw [if_neg h2] at hcalc; cases hcalc
  · rw [if_neg h1] at hcalc; cases hcalc

/-- Witness for the amended C5: the slice `0:3:1` of the interval
dimension `[2, 5]` gives the well-formed output dimension `[2, 3]`. -/
theorem C5_nonneg_indices_well_formed_witness :
    (⟨2, 3⟩ : Dimension).well_formed :=
  C5_nonneg_indices_well_formed [0] [3] [1] [0] [⟨2, 5⟩] [⟨2, 3⟩]
    (by decide) (by decide) (by decide) (by decide) ⟨2, 3⟩
    (List.mem_singleton.mpr rfl)

end Slice

namespace Codec

/-- Modulus of `size_t` arithmetic (64-bit). -/
def M64 : Nat := 18446744073709551616

/-- Little-endian word value of a byte list: the `memcpy` of up to eight
bytes into a zero-initialized `size_t`. -/
def word_of_bytes (bs : List Nat) : Nat := bs.foldr (fun b acc => b + 256 * acc) 0

/-- One combining step,
`seed ^= w + 0x9e3779b9 + (seed << 6) + (seed >> 2)`, in `size_t`
arithmetic (`2654435769 = 0x9e3779b9`). -/
def mix (seed w : Nat) : Nat :=
  Nat.xor seed ((w + 2654435769 + seed * 64 + seed / 4) % M64)

/-- Chunk loop of `hash_combine` from
`src/ngraph/core/src/pass/serialize.cpp` (lines 62-77): whole
`size_t`-sized chunks are combined in order and the zero-padded remainder
(possibly empty) is combined last. -/
def hash_chunks (seed : Nat) : List Nat → Nat
  | b0 :: b1 :: b2 :: b3 :: b4 :: b5 :: b6 :: b7 :: rest =>
    hash_chunks (mix seed (word_of_bytes [b0, b1, b2, b3, b4, b5, b6, b7])) rest
  | bs => mix seed (word_of_bytes bs)

/-- `hash_combine(v, size)`: the seed starts as the byte count. -/
def hash_combine (bytes : List Nat) : Nat := hash_chunks bytes.length bytes

/-- State of `ConstantWriter` (`serialize.cpp` lines 79-119): the binary
output stream written so far (the stream starts at the blob offset, so
offsets count from zero), the hash-to-position map retaining the offset
and bytes of the first buffer written per hash, and the compression
flag. -/
structure ConstantWriter where
  output : List Nat
  table : List (Nat × Int × List Nat)
  compression : Bool
deriving DecidableEq, Repr

def cw_init : ConstantWriter := ⟨[], [], true⟩

/-- `unordered_map::find`: the unique entry with the given key, if any. -/
def table_find (t : List (Nat × Int × List Nat)) (h : Nat) : Option (Int × List Nat) :=
  match t with
  | [] => none
  | (k, v) :: rest => if k = h then some v else table_find rest h

/-- `unordered_map::insert`: a no-op when the key is already present. -/
def table_insert (t : List (Nat × Int × List Nat)) (h : Nat) (v : Int × List Nat) :
    List (Nat × Int × List Nat) :=
  match table_find t h with
  | some _ => t
  | none => t ++ [(h, v)]

/-- `ConstantWriter::write` (lines 90-112): with compression disabled the
bytes are appended unconditionally; with compression enabled the weak
hash selects the retained candidate, `memcmp` over the new buffer's size
decides reuse, and on a miss or mismatch the bytes are appended at the
current end of the stream (`insert` keeps the first entry per hash). -/
def ConstantWriter.write (cw : ConstantWriter) (bytes : List Nat) :
    Int × ConstantWriter :=
  let offset : Int := cw.output.length
  if cw.compression = false then
    (offset, { cw with output := cw.output ++ bytes })
  else
    let h := hash_combine bytes
    match table_find cw.table h with
    | some (off, retained) =>
      if retained.take bytes.length = bytes then
        (off, cw)
      else
        (offset, ⟨cw.output ++ bytes, table_insert cw.table h (offset, bytes),
          cw.compression⟩)
    | none =>
      (offset, ⟨cw.output ++ bytes, table_insert cw.table h (offset, bytes),
        cw.compression⟩)

/-- A sequence of payload writes, returning the offsets handed out. -/
def write_seq (cw : ConstantWriter) : List (List Nat) → List Int × ConstantWriter
  | [] => ([], cw)
  | p :: ps =>
    let r := cw.write p
    let rs := write_seq r.2 ps
    (r.1 :: rs.1, rs.2)

/-- Two 16-byte buffers that differ in bytes yet collide on the weak
content hash; both also collide with the empty buffer's hash. -/
def bufA : List Nat := [0, 0, 0, 0, 0, 0, 0, 0, 73, 185, 146, 74, 216, 255, 255, 255]

def bufB : List Nat := [1, 0, 0, 0, 0, 0, 0, 0, 10, 185, 146, 74, 216, 255, 255, 255]

/-- C2 counterexample: `bufA ≠ bufB` collide on the weak hash.  Writing
`A, B, B` hands the byte-identical second `B` a third offset 32 instead
of 16 (the map retains only the first buffer per hash, so `B` occupies
two offsets in the stream); and writing `[]` then a buffer colliding with
the empty buffer's hash returns offset 0 for both, so the "new, distinct
offset" clause also fails for an empty retained buffer. -/
theorem C2_counterexample :
    bufA ≠ bufB ∧ hash_combine bufA = hash_combine bufB ∧
      (write_seq cw_init [bufA, bufB, bufB]).1 = [0, 16, 32] ∧
      hash_combine [] = hash_combine bufA ∧
      (write_seq cw_init [[], bufA]).1 = [0, 0] := by
  refine ⟨by decide, by decide, by decide, by decide, by decide⟩

/-- Retained offsets (plus their buffer's extent) stay within the stream. -/
def table_bounded (cw : ConstantWriter) : Prop :=
  ∀ e ∈ cw.table, 0 ≤ e.2.1 ∧ e.2.1 + e.2.2.length ≤ cw.output.length

theorem table_insert_found (t : List (Nat × Int × List Nat)) (h : Nat)
    (v w : Int × List Nat) (hf : table_find t h = some w) :
    table_insert t h v = t := by
  unfold table_insert
  rw [hf]

theorem table_find_mem (t : List (Nat × Int × List Nat)) (h : Nat) (off : Int)
    (retained : List Nat) (hf : table_find t h = some (off, retained)) :
    (h, off, retained) ∈ t := by
  induction t with
  | nil => cases hf
  | cons e rest ih =>
    obtain ⟨k, v⟩ := e
    unfold table_find at hf
    by_cases hk : k = h
    · rw [if_pos hk] at hf
      injection hf with hv
      subst hk hv
      exact List.mem_cons_self _ _
    · rw [if_neg hk] at hf
      exact List.mem_cons_of_mem _ (ih hf)

theorem write_preserves_bounded (cw : ConstantWriter) (p : List Nat)
    (hb : table_bounded cw) : table_bounded (cw.write p).2 := by
  by_cases hc : cw.compression = false
  · simp only [ConstantWriter.write, if_pos hc]
    intro e he
    have := hb e he
    simp only [List.length_append]
    omega
  rcases hfind : table_find cw.table (hash_combine p) with _ | ⟨off, retained⟩
  · simp only [ConstantWriter.write, if_neg hc, hfind]
    intro e he
    unfold table_insert at he
    rw [hfind] at he
    simp only [List.mem_append, List.mem_singleton] at he
    rcases he with he | he
    · have := hb e he
      simp only [List.length_append]
      omega
    · subst he
      simp only [List.length_append]
      omega
  · by_cases heq : retained.take p.length = p
    · simp only [ConstantWriter.write, if_neg hc, hfind, if_pos heq]
      exact hb
    · simp only [ConstantWriter.write, if_neg hc, hfind, if_neg heq]
      intro e he
      rw [table_insert_found _ _ _ _ hfind] at he
      have := hb e he
      simp only [List.length_append]
      omega

theorem write_preserves_compression (cw : ConstantWriter) (p : List Nat) :
    (cw.write p).2.compression = cw.compression := by
  by_cases hc : cw.compression = false
  · simp only [ConstantWriter.write, if_pos hc]
  rcases hfind : table_find cw.table (hash_combine p) with _ | ⟨off, retained⟩
  · simp only [ConstantWriter.write, if_neg hc, hfind]
  · by_cases heq : retained.take p.length = p
    · simp only [ConstantWriter.write, if_neg hc, hfind, if_pos heq]
    · simp only [ConstantWriter.write, if_neg hc, hfind, if_neg heq]

theorem write_seq_bounded_aux (ps : List (List Nat)) (cw : ConstantWriter)
    (hb : table_bounded cw) : table_bounded (write_seq cw ps).2 := by
  induction ps generalizing cw with
  | nil => exact hb
  | cons p ps ih => exact ih _ (write_preserves_bounded _ _ hb)

theorem write_seq_bounded (ps : List (List Nat)) :
    table_bounded (write_seq cw_init ps).2 :=
  write_seq_bounded_aux ps cw_init (by intro e he; cases he)

theorem write_seq_compression_aux (ps : List (List Nat)) (cw : ConstantWriter) :
    (write_seq cw ps).2.compression = cw.compression := by
  induction ps generalizing cw with
  | nil => rfl
  | cons p ps ih =>
    show (write_seq (cw.write p).2 ps).2.compression = _
    rw [ih, write_preserves_compression]

theorem write_seq_compression (ps : List (List Nat)) :
    (write_seq cw_init ps).2.compression = true :=
  write_seq_compression_aux ps cw_init

/-- C2 (amended): with compression enabled, after any sequence of payload
writes: a payload whose bytes match (under `memcmp` over its own size)
the retained first payload for its hash is handed that payload's offset
with the stream untouched; a payload whose weak hash equals a retained
payload's hash but whose bytes differ is appended at the current end of
the stream — an offset distinct from the retained payload's offset
whenever the retained payload is nonempty — and the full byte comparison
always precedes reuse; `write` is total, so a collision never surfaces as
an error. -/
theorem C2_collision_dedup (ps : List (List Nat)) (p : List Nat) (off : Int)
    (retained : List Nat)
    (hfind : table_find (write_seq cw_init ps).2.table (hash_combine p) =
      some (off, retained)) :
    (retained.take p.length = p →
      (write_seq cw_init ps).2.write p = (off, (write_seq cw_init ps).2)) ∧
    (retained.take p.length ≠ p →
      ((write_seq cw_init ps).2.write p).1 =
          ((write_seq cw_init ps).2.output.length : Int) ∧
      ((write_seq cw_init ps).2.write p).2.output =
          (write_seq cw_init ps).2.output ++ p ∧
      (retained ≠ [] → ((write_seq cw_init ps).2.write p).1 ≠ off)) := by
  have hcomp := write_seq_compression ps
  have hbound := write_seq_bounded ps
  have hnc : ¬((write_seq cw_init ps).2.compression = false) := by
    rw [hcomp]; simp
  constructor
  · intro htake
    simp only [ConstantWriter.write, if_neg hnc, hfind, if_pos htake]
  · intro htake
    simp only [ConstantWriter.write, if_neg hnc, hfind, if_neg htake]
    refine ⟨trivial, trivial, ?_⟩
    intro hne
    have hoffb := hbound _ (table_find_mem _ _ _ _ hfind)
    simp only at hoffb
    have hlen : 1 ≤ retained.length := by
      cases retained with
      | nil => exact absurd rfl hne
      | cons a l => simp
    intro habs
    omega

/-- Witness for the amended C2: after writing `[5]`, writing the same
bytes again returns the original offset 0 and leaves the state intact. -/
theorem C2_collision_dedup_witness :
    (write_seq cw_init [[5]]).2.write [5] = (0, (write_seq cw_init [[5]]).2) :=
  (C2_collision_dedup [[5]] [5] 0 [5] (by decide)).1 (by decide)

end Codec

namespace Serializer

/-- A tensor port descriptor as read by the serializer: precision name,
dimension list (with `-1` for a dynamic dimension), tensor-name aliases
and the port's runtime info. -/
structure SPort where
  precision : String
  dims : List Int
  tensorNames : List String
  rt : List (String × String)
deriving DecidableEq, Repr

instance : Inhabited SPort := ⟨⟨"", [], [], []⟩⟩

/-- One node input: the producer node's index in the function's ordered
node list, the producer's output index, and the port descriptor. -/
structure SInput where
  src : Nat
  srcOut : Nat
  port : SPort
deriving DecidableEq, Repr

instance : Inhabited SInput := ⟨⟨0, 0, default⟩⟩

/-- A graph node as the serializer sees it.  `uniqueName` is the
system-assigned name (derived from the atomic unique id), `friendlyName`
the user-settable one; `is_name_auto_generated` holds when they agree. -/
structure SNode where
  typeName : String
  typeVersion : Nat
  opsetName : String
  friendlyName : String
  uniqueName : String
  isParam : Bool
  isSink : Bool
  isResult : Bool
  inputs : List SInput
  outPorts : List SPort
  attrs : List (String × String)
  rt : List (String × String)
  constData : Option (List Nat)
deriving DecidableEq, Repr

instance : Inhabited SNode :=
  ⟨⟨"", 0, "", "", "", false, false, false, [], [], [], [], none⟩⟩

/-- A Function: topologically ordered node list (`get_ordered_ops`; the
layer id of a node is its position here, as `create_layer_ids` assigns
ids in that order) plus the stored parameter/sink/result lists given as
indices into the ordered list. -/
structure SFunction where
  friendlyName : String
  uniqueName : String
  ordered : List SNode
  paramIdx : List Nat
  sinkIdx : List Nat
  resultIdx : List Nat
deriving DecidableEq, Repr

/-- `is_name_auto_generated` (`serialize.cpp` lines 655-658):
the friendly name equals the system-assigned name. -/
def node_auto_named (n : SNode) : Prop := n.friendlyName = n.uniqueName

instance (n : SNode) : Decidable (node_auto_named n) := by
  unfold node_auto_named; infer_instance

def fn_auto_named (f : SFunction) : Prop := f.friendlyName = f.uniqueName

instance (f : SFunction) : Decidable (fn_auto_named f) := by
  unfold fn_auto_named; infer_instance

/-- The fixed type-name compatibility table (`serialize.cpp` 49-60). -/
def translate_type_name (s : String) : String :=
  if s = "Constant" then "Const"
  else if s = "PRelu" then "PReLU"
  else if s = "Relu" then "ReLU"
  else if s = "Softmax" then "SoftMax"
  else s

/-- `dynamic_cast<opset1::LSTMCell*>`: the node is the version-0
`LSTMCell` operation. -/
def is_lstm_cell_v0 (n : SNode) : Bool :=
  n.typeName == "LSTMCell" && n.typeVersion == 0

/-- `generate_unique_name` (lines 643-653), with the unbounded recursion
bounded by fuel; `used.length + 1` suffixes always contain a free one. -/
def generate_unique_name : Nat → List String → String → Nat → String
  | 0, _, base, suffix => base ++ toString suffix
  | fuel + 1, used, base, suffix =>
    let new_name := base ++ toString suffix
    if new_name ∈ used then generate_unique_name fuel used base (suffix + 1)
    else new_name

/-- `get_node_unique_name` (lines 661-668): suffix the friendly name on a
clash and record the emitted name. -/
def get_node_unique_name (used : List String) (n : SNode) : String × List String :=
  let name := n.friendlyName
  if name ∈ used then
    let nm := generate_unique_name (used.length + 1) used name 0
    (nm, nm :: used)
  else (name, name :: used)

/-- An emitted `<port>` element: id, precision, dims, sorted tensor
names (outputs only) and, for version 11 and newer, the port's runtime
info. -/
structure EPort where
  id : Nat
  precision : String
  dims : List Int
  tensorNames : List String
  rt : Option (List (String × String))
deriving DecidableEq, Repr

/-- An emitted `<layer>` element. -/
structure ELayer where
  id : Nat
  name : Option String
  typeName : String
  opset : String
  inPorts : List EPort
  outPorts : List EPort
  attrs : List (String × String)
  rtNode : Option (List (String × String))
deriving DecidableEq, Repr

/-- An emitted `<edge>` element. -/
structure EEdge where
  from_layer : Nat
  from_port : Nat
  to_layer : Nat
  to_port : Nat
deriving DecidableEq, Repr

instance : Inhabited EEdge := ⟨⟨0, 0, 0, 0⟩⟩

/-- The serializer's output: the metadata stream (net name attribute,
layer list, edge list) and the binary payload stream. -/
structure EOut where
  name : Option String
  layers : List ELayer
  edges : List EEdge
  bin : List Nat
deriving DecidableEq, Repr

/-- The `<input>` loop (lines 912-935) with its running `port_id`
counter: the counter advances once per input, and the 7th input
(index 6) of a version-0 LSTMCell advances the counter without emitting a
port. -/
def emit_in_ports_loop (version : Int) (lstm : Bool) : Nat → List SInput → List EPort
  | _, [] => []
  | k, inp :: rest =>
    if k == 6 && lstm then emit_in_ports_loop version lstm (k + 1) rest
    else
      ⟨k, inp.port.precision, inp.port.dims, [],
        if 11 ≤ version then some inp.port.rt else none⟩ ::
        emit_in_ports_loop version lstm (k + 1) rest

def emit_in_ports (version : Int) (n : SNode) : List EPort :=
  emit_in_ports_loop version (is_lstm_cell_v0 n) 0 n.inputs

/-- The `<output>` loop (lines 942-978): port ids continue after the
input counter (whose final value is the input count); tensor names are
sorted. -/
def emit_out_ports_loop (version : Int) : Nat → List SPort → List EPort
  | _, [] => []
  | k, p :: rest =>
    ⟨k, p.precision, p.dims, p.tensorNames.mergeSort (fun a b => a ≤ b),
      if 11 ≤ version then some p.rt else none⟩ ::
      emit_out_ports_loop version (k + 1) rest

/-- The `<output>` block is emitted unless the node is a Result
(`is_output`) or has no outputs. -/
def emit_out_ports (version : Int) (n : SNode) : List EPort :=
  if n.outPorts ≠ [] ∧ n.isResult = false then
    emit_out_ports_loop version n.inputs.length n.outPorts
  else []

/-- The layer's name attribute (lines 874-877): omitted in deterministic
mode when the name is auto-generated; otherwise uniquified and recorded. -/
def layer_name (det : Bool) (n : SNode) (used : List String) :
    Option String × List String :=
  if det ∧ node_auto_named n then ((none : Option String), used)
  else
    let r := get_node_unique_name used n
    (some r.1, r.2)

/-- The layer's data attributes: a Constant payload goes through the
`ConstantWriter` and contributes offset/size attributes (lines 428-437). -/
def layer_attrs (n : SNode) (cw : Codec.ConstantWriter) :
    List (String × String) × Codec.ConstantWriter :=
  match n.constData with
  | some bytes =>
    let r := cw.write bytes
    (n.attrs ++ [("offset", toString r.1), ("size", toString bytes.length)], r.2)
  | none => (n.attrs, cw)

def emit_layer (version : Int) (det : Bool) (n : SNode) (idx : Nat)
    (used : List String) (cw : Codec.ConstantWriter) :
    ELayer × List String × Codec.ConstantWriter :=
  (⟨idx, (layer_name det n used).1, translate_type_name n.typeName, n.opsetName,
    emit_in_ports version n, emit_out_ports version n,
    (layer_attrs n cw).1, if 11 ≤ version then some n.rt else none⟩,
   (layer_name det n used).2, (layer_attrs n cw).2)

/-- The emission order (lines 846-864): for version 11 and newer the
ordered ops are regrouped as parameters, interior nodes in topological
order, sinks, then results; version 10 keeps the strict topological
order.  Nodes are referred to by their ordered-list position (their
layer id). -/
def sorted_idx (f : SFunction) (version : Int) : List Nat :=
  if 11 ≤ version then
    f.paramIdx ++
      ((List.range f.ordered.length).filter fun i =>
        let n := f.ordered.getD i default
        !(n.isParam || n.isResult || n.isSink)) ++
      f.sinkIdx ++ f.resultIdx
  else List.range f.ordered.length

/-- Emit the layers in order, threading the emitted-name set and the
constant writer. -/
def emit_layers (version : Int) (det : Bool) (f : SFunction) :
    List Nat → List String → Codec.ConstantWriter → List ELayer × Codec.ConstantWriter
  | [], _, cw => ([], cw)
  | i :: rest, used, cw =>
    let r := emit_layer version det (f.ordered.getD i default) i used cw
    let rs := emit_layers version det f rest r.2.1 r.2.2
    (r.1 :: rs.1, rs.2)

/-- Edge records of `create_edge_mapping` (lines 531-559) before sorting:
parameters contribute no edges; `from_port` is the producer's input count
plus the producing output index. -/
def edges_of_nodes (f : SFunction) : List (Nat × SNode) → List EEdge
  | [] => []
  | (i, n) :: rest =>
    (if n.isParam then [] else
      n.inputs.enum.map fun kinp =>
        ⟨kinp.2.src,
          (f.ordered.getD kinp.2.src default).inputs.length + kinp.2.srcOut,
          i, kinp.1⟩) ++ edges_of_nodes f rest

/-- `create_edge_mapping`: edges over all ordered ops, sorted by source
layer id. -/
def create_edge_mapping (f : SFunction) : List EEdge :=
  (edges_of_nodes f f.ordered.enum).mergeSort fun a b => a.from_layer ≤ b.from_layer

/-- The `<edges>` element (lines 996-1012): an edge into port 6 of a
version-0 LSTMCell is dropped. -/
def emit_edges (f : SFunction) : List EEdge :=
  (create_edge_mapping f).filter fun e =>
    !(e.to_port == 6 && is_lstm_cell_v0 (f.ordered.getD e.to_layer default))

/-- `ngfunction_2_ir` (lines 825-1017): net name attribute (omitted in
deterministic mode for an auto-generated function name), layers in the
version-dependent order, edges, and the binary stream produced by the
constant writer. -/
def ngfunction_2_ir (f : SFunction) (version : Int) (det : Bool) : EOut :=
  let name :=
    if det ∧ fn_auto_named f then (none : Option String) else some f.friendlyName
  let lr := emit_layers version det f (sorted_idx f version) [] Codec.cw_init
  ⟨name, lr.1, emit_edges f, lr.2.output⟩

theorem emit_layer_id (version : Int) (det : Bool) (n : SNode) (idx : Nat)
    (used : List String) (cw : Codec.ConstantWriter) :
    (emit_layer version det n idx used cw).1.id = idx := rfl

theorem emit_layer_inPorts (version : Int) (det : Bool) (n : SNode) (idx : Nat)
    (used : List String) (cw : Codec.ConstantWriter) :
    (emit_layer version det n idx used cw).1.inPorts = emit_in_ports version n := rfl

theorem emit_layer_outPorts (version : Int) (det : Bool) (n : SNode) (idx : Nat)
    (used : List String) (cw : Codec.ConstantWriter) :
    (emit_layer version det n idx used cw).1.outPorts = emit_out_ports version n := rfl

theorem emit_layers_map_id (version : Int) (det : Bool) (f : SFunction)
    (idxs : List Nat) (used : List String) (cw : Codec.ConstantWriter) :
    ((emit_layers version det f idxs used cw).1.map fun l => l.id) = idxs := by
  induction idxs generalizing used cw with
  | nil => rfl
  | cons i rest ih =>
    simp only [emit_layers, List.map_cons]
    rw [emit_layer_id, ih]

theorem emit_layers_mem (version : Int) (det : Bool) (f : SFunction)
    (idxs : List Nat) (l : ELayer) :
    ∀ (used : List String) (cw : Codec.ConstantWriter),
      l ∈ (emit_layers version det f idxs used cw).1 →
      ∃ i used' cw', i ∈ idxs ∧
        l = (emit_layer version det (f.ordered.getD i default) i used' cw').1 := by
  induction idxs with
  | nil => intro used cw hl; cases hl
  | cons i rest ih =>
    intro used cw hl
    simp only [emit_layers, List.mem_cons] at hl
    rcases hl with hl | hl
    · exact ⟨i, used, cw, List.mem_cons_self _ _, hl⟩
    · obtain ⟨i', u', c', hm, he⟩ := ih _ _ hl
      exact ⟨i', u', c', List.mem_cons_of_mem _ hm, he⟩

theorem emit_in_ports_loop_rt_none (version : Int) (hv : version < 11) (lstm : Bool)
    (l : List SInput) : ∀ (k : Nat), ∀ p ∈ emit_in_ports_loop version lstm k l,
      p.rt = none := by
  induction l with
  | nil => intro k p hp; cases hp
  | cons inp rest ih =>
    intro k p hp
    simp only [emit_in_ports_loop] at hp
    by_cases hk : (k == 6 && lstm) = true
    · rw [if_pos hk] at hp; exact ih _ p hp
    · rw [if_neg hk] at hp
      rcases List.mem_cons.mp hp with heq | hmem
      · rw [heq]
        show (if (11 : Int) ≤ version then some inp.port.rt else none) = none
        rw [if_neg (by omega)]
      · exact ih _ p hmem

theorem emit_in_ports_loop_rt_some (version : Int) (hv : 11 ≤ version) (lstm : Bool)
    (l : List SInput) : ∀ (k : Nat), ∀ p ∈ emit_in_ports_loop version lstm k l,
      p.rt.isSome = true := by
  induction l with
  | nil => intro k p hp; cases hp
  | cons inp rest ih =>
    intro k p hp
    simp only [emit_in_ports_loop] at hp
    by_cases hk : (k == 6 && lstm) = true
    · rw [if_pos hk] at hp; exact ih _ p hp
    · rw [if_neg hk] at hp
      rcases List.mem_cons.mp hp with heq | hmem
      · rw [heq]
        show (if (11 : Int) ≤ version then some inp.port.rt else none).isSome = true
        rw [if_pos hv]
        rfl
      · exact ih _ p hmem

theorem emit_out_ports_loop_rt_none (version : Int) (hv : version < 11)
    (l : List SPort) : ∀ (k : Nat), ∀ p ∈ emit_out_ports_loop version k l,
      p.rt = none := by
  induction l with
  | nil => intro k p hp; cases hp
  | cons q rest ih =>
    intro k p hp
    simp only [emit_out_ports_loop] at hp
    rcases List.mem_cons.mp hp with heq | hmem
    · rw [heq]
      show (if (11 : Int) ≤ version then some q.rt else none) = none
      rw [if_neg (by omega)]
    · exact ih _ p hmem

theorem emit_out_ports_loop_rt_some (version : Int) (hv : 11 ≤ version)
    (l : List SPort) : ∀ (k : Nat), ∀ p ∈ emit_out_ports_loop version k l,
      p.rt.isSome = true := by
  induction l with
  | nil => intro k p hp; cases hp
  | cons q rest ih =>
    intro k p hp
    simp only [emit_out_ports_loop] at hp
    rcases List.mem_cons.mp hp with heq | hmem
    · rw [heq]
      show (if (11 : Int) ≤ version then some q.rt else none).isSome = true
      rw [if_pos hv]
      rfl
    · exact ih _ p hmem

theorem emit_out_ports_rt_none (version : Int) (hv : version < 11) (n : SNode) :
    ∀ p ∈ emit_out_ports version n, p.rt = none := by
  intro p hp
  unfold emit_out_ports at hp
  by_cases hc : n.outPorts ≠ [] ∧ n.isResult = false
  · rw [if_pos hc] at hp
    exact emit_out_ports_loop_rt_none version hv n.outPorts _ p hp
  · rw [if_neg hc] at hp
    cases hp

theorem emit_out_ports_rt_some (version : Int) (hv : 11 ≤ version) (n : SNode) :
    ∀ p ∈ emit_out_ports version n, p.rt.isSome = true := by
  intro p hp
  unfold emit_out_ports at hp
  by_cases hc : n.outPorts ≠ [] ∧ n.isResult = false
  · rw [if_pos hc] at hp
    exact emit_out_ports_loop_rt_some version hv n.outPorts _ p hp
  · rw [if_neg hc] at hp
    cases hp

/-- C7: the serialized layer order and the presence of port runtime info
are version-dependent: version 10 emits layers in strict topological
order (layer ids are the ordered positions, in order) with no runtime
info on any port, while version 11 and newer regroups layers as
parameters, interior nodes in topological order, sinks, then results,
with runtime info embedded on every emitted port. -/
theorem C7_version_layout (f : SFunction) (det : Bool) (version : Int) :
    (((ngfunction_2_ir f 10 det).layers.map fun l => l.id) =
        List.range f.ordered.length ∧
      ∀ l ∈ (ngfunction_2_ir f 10 det).layers,
        (∀ p ∈ l.inPorts, p.rt = none) ∧ ∀ p ∈ l.outPorts, p.rt = none) ∧
    (11 ≤ version →
      ((ngfunction_2_ir f version det).layers.map fun l => l.id) =
        f.paramIdx ++
          ((List.range f.ordered.length).filter fun i =>
            let n := f.ordered.getD i default
            !(n.isParam || n.isResult || n.isSink)) ++
          f.sinkIdx ++ f.resultIdx ∧
      ∀ l ∈ (ngfunction_2_ir f version det).layers,
        (∀ p ∈ l.inPorts, p.rt.isSome = true) ∧
          ∀ p ∈ l.outPorts, p.rt.isSome = true) := by
  constructor
  · constructor
    · show ((emit_layers 10 det f (sorted_idx f 10) [] Codec.cw_init).1.map
        fun l => l.id) = _
      rw [emit_layers_map_id]
      unfold sorted_idx
      rw [if_neg (by norm_num)]
    · intro l hl
      obtain ⟨i, u', c', _, heq⟩ := emit_layers_mem 10 det f _ l _ _ hl
      subst heq
      rw [emit_layer_inPorts, emit_layer_outPorts]
      constructor
      · intro p hp
        exact emit_in_ports_loop_rt_none 10 (by norm_num) _ _ _ p hp
      · exact emit_out_ports_rt_none 10 (by norm_num) _
  · intro hv
    constructor
    · show ((emit_layers version det f (sorted_idx f version) [] Codec.cw_init).1.map
        fun l => l.id) = _
      rw [emit_layers_map_id]
      unfold sorted_idx
      rw [if_pos hv]
    · intro l hl
      obtain ⟨i, u', c', _, heq⟩ := emit_layers_mem version det f _ l _ _ hl
      subst heq
      rw [emit_layer_inPorts, emit_layer_outPorts]
      constructor
      · intro p hp
        exact emit_in_ports_loop_rt_some version hv _ _ _ p hp
      · exact emit_out_ports_rt_some version hv _

/-- A small example function: Parameter -> Relu -> Result. -/
def exP : SNode :=
  ⟨"Parameter", 0, "opset1", "p", "Parameter_1", true, false, false, [],
    [⟨"FP32", [1], ["x"], []⟩], [], [], none⟩

def exA : SNode :=
  ⟨"Relu", 0, "opset1", "a", "Relu_2", false, false, false,
    [⟨0, 0, ⟨"FP32", [1], [], []⟩⟩], [⟨"FP32", [1], [], []⟩], [], [], none⟩

def exR : SNode :=
  ⟨"Result", 0, "opset1", "r", "Result_3", false, false, true,
    [⟨1, 0, ⟨"FP32", [1], [], []⟩⟩], [⟨"FP32", [1], [], []⟩], [], [], none⟩

def exF : SFunction := ⟨"net", "Function_0", [exP, exA, exR], [0], [], [2]⟩

theorem emit_in_ports_loop_ids (version : Int) (lstm : Bool) (l : List SInput) :
    ∀ k, ((emit_in_ports_loop version lstm k l).map fun p => p.id) =
      (List.range' k l.length).filter fun j => !(j == 6 && lstm) := by
  induction l with
  | nil => intro k; rfl
  | cons inp rest ih =>
    intro k
    simp only [emit_in_ports_loop, List.length_cons, List.range'_succ, List.filter_cons]
    by_cases hk : (k == 6 && lstm) = true
    · rw [if_pos hk, ih]
      simp [hk]
    · rw [if_neg hk]
      simp only [List.map_cons, ih]
      have hfk : (!(k == 6 && lstm)) = true := by
        simp only [Bool.not_eq_true'] at hk ⊢
        exact Bool.not_eq_true _ ▸ (Bool.eq_false_iff.mpr hk)
      rw [if_pos hfk]

theorem emit_out_ports_loop_ids (version : Int) (l : List SPort) :
    ∀ k, ((emit_out_ports_loop version k l).map fun p => p.id) =
      List.range' k l.length := by
  induction l with
  | nil => intro k; rfl
  | cons q rest ih =>
    intro k
    simp only [emit_out_ports_loop, List.length_cons, List.range'_succ, List.map_cons, ih]

/-- C9: for a version-0 LSTMCell node, the emitted input block skips the
7th input (index 6) while the port counter still advances (the input
port ids are exactly `0..inputs-1` without `6`), the output port ids
still start at the full input count, and no edge with to-port 6 targets
that node. -/
theorem C9_lstm_peephole (f : SFunction) (version : Int) (det : Bool) (idx : Nat)
    (hty : (f.ordered.getD idx default).typeName = "LSTMCell")
    (hver : (f.ordered.getD idx default).typeVersion = 0)
    (hin : 7 ≤ (f.ordered.getD idx default).inputs.length)
    (hres : (f.ordered.getD idx default).isResult = false)
    (houts : (f.ordered.getD idx default).outPorts ≠ []) :
    (∀ l ∈ (ngfunction_2_ir f version det).layers, l.id = idx →
      (l.inPorts.map fun p => p.id) =
          (List.range (f.ordered.getD idx default).inputs.length).filter
            (fun j => !(j == 6)) ∧
        (l.outPorts.map fun p => p.id) =
          List.range' (f.ordered.getD idx default).inputs.length
            (f.ordered.getD idx default).outPorts.length) ∧
    ∀ e ∈ (ngfunction_2_ir f version det).edges,
      ¬(e.to_layer = idx ∧ e.to_port = 6) := by
  have hlstm : is_lstm_cell_v0 (f.ordered.getD idx default) = true := by
    unfold is_lstm_cell_v0
    rw [hty, hver]
    rfl
  constructor
  · intro l hl hid
    obtain ⟨i, u', c', _, heq⟩ := emit_layers_mem version det f _ l _ _ hl
    have hi : i = idx := by rw [heq, emit_layer_id] at hid; exact hid
    subst hi
    subst heq
    rw [emit_layer_inPorts, emit_layer_outPorts]
    constructor
    · unfold emit_in_ports
      rw [hlstm, emit_in_ports_loop_ids, List.range_eq_range']
      apply List.filter_congr
      intro j hj
      simp
    · unfold emit_out_ports
      rw [if_pos ⟨houts, hres⟩, emit_out_ports_loop_ids]
  · intro e he hcontra
    obtain ⟨h1, h2⟩ := hcontra
    have hpred := List.of_mem_filter he
    rw [h1, h2, hlstm] at hpred
    simp at hpred

/-- A one-output parameter feeding a version-0 LSTMCell with 7 inputs. -/
def exLstmIn : SInput := ⟨0, 0, ⟨"FP32", [2], [], []⟩⟩

def exLstm : SNode :=
  ⟨"LSTMCell", 0, "opset1", "cell", "LSTMCell_2", false, false, false,
    [exLstmIn, exLstmIn, exLstmIn, exLstmIn, exLstmIn, exLstmIn, exLstmIn],
    [⟨"FP32", [2], [], []⟩, ⟨"FP32", [2], [], []⟩], [], [], none⟩

def exFLstm : SFunction := ⟨"net", "net", [exP, exLstm], [0], [], []⟩

/-- Witness for C9 at a concrete 7-input version-0 LSTMCell function. -/
theorem C9_lstm_peephole_witness :
    (∀ l ∈ (ngfunction_2_ir exFLstm 10 false).layers, l.id = 1 →
      (l.inPorts.map fun p => p.id) =
          (List.range (exFLstm.ordered.getD 1 default).inputs.length).filter
            (fun j => !(j == 6)) ∧
        (l.outPorts.map fun p => p.id) =
          List.range' (exFLstm.ordered.getD 1 default).inputs.length
            (exFLstm.ordered.getD 1 default).outPorts.length) ∧
    ∀ e ∈ (ngfunction_2_ir exFLstm 10 false).edges,
      ¬(e.to_layer = 1 ∧ e.to_port = 6) :=
  C9_lstm_peephole exFLstm 10 false 1 (by decide) (by decide) (by decide)
    (by decide) (by decide)

theorem edges_of_nodes_mem (f : SFunction) (l : List (Nat × SNode)) (e : EEdge)
    (he : e ∈ edges_of_nodes f l) :
    ∃ i n, (i, n) ∈ l ∧ n.isParam = false ∧ ∃ k inp, (k, inp) ∈ n.inputs.enum ∧
      e = ⟨inp.src,
        (f.ordered.getD inp.src default).inputs.length + inp.srcOut, i, k⟩ := by
  induction l with
  | nil => cases he
  | cons hd rest ih =>
    obtain ⟨i, n⟩ := hd
    simp only [edges_of_nodes, List.mem_append] at he
    rcases he with he | he
    · by_cases hp : n.isParam = true
      · rw [if_pos hp] at he; cases he
      · rw [if_neg hp] at he
        simp only [List.mem_map] at he
        obtain ⟨kinp, hk, heq⟩ := he
        exact ⟨i, n, List.mem_cons_self _ _, by simpa using hp, kinp.1, kinp.2,
          by simpa using hk, heq.symm⟩
    · obtain ⟨i', n', hmem, hnp, k, inp, hkin, heq⟩ := ih he
      exact ⟨i', n', List.mem_cons_of_mem _ hmem, hnp, k, inp, hkin, heq⟩

theorem create_edge_mapping_sorted (f : SFunction) :
    List.Pairwise (fun a b : EEdge => a.from_layer ≤ b.from_layer)
      (create_edge_mapping f) := by
  unfold create_edge_mapping
  have h := @List.sorted_mergeSort EEdge
    (fun a b : EEdge => a.from_layer ≤ b.from_layer)
    (fun a b c hab hbc => by
      simp only [decide_eq_true_eq] at *
      omega)
    (fun a b => by
      simp only [Bool.or_eq_true, decide_eq_true_eq]
      omega)
    (edges_of_nodes f f.ordered.enum)
  exact h.imp (fun hab => by simpa using hab)

theorem mem_sorted_idx (f : SFunction) (version : Int) (i : Nat)
    (hi : i < f.ordered.length)
    (hflags : ((f.ordered.getD i default).isParam = true → i ∈ f.paramIdx) ∧
      ((f.ordered.getD i default).isSink = true → i ∈ f.sinkIdx) ∧
      ((f.ordered.getD i default).isResult = true → i ∈ f.resultIdx)) :
    i ∈ sorted_idx f version := by
  unfold sorted_idx
  by_cases hv : 11 ≤ version
  · rw [if_pos hv]
    simp only [List.mem_append]
    by_cases hp : (f.ordered.getD i default).isParam = true
    · exact Or.inl (Or.inl (Or.inl (hflags.1 hp)))
    by_cases hs : (f.ordered.getD i default).isSink = true
    · exact Or.inl (Or.inr (hflags.2.1 hs))
    by_cases hr : (f.ordered.getD i default).isResult = true
    · exact Or.inr (hflags.2.2 hr)
    · refine Or.inl (Or.inl (Or.inr ?_))
      rw [List.mem_filter]
      refine ⟨List.mem_range.mpr hi, ?_⟩
      have hp' : (f.ordered.getD i default).isParam = false := by
        revert hp; cases (f.ordered.getD i default).isParam <;> simp
      have hs' : (f.ordered.getD i default).isSink = false := by
        revert hs; cases (f.ordered.getD i default).isSink <;> simp
      have hr' : (f.ordered.getD i default).isResult = false := by
        revert hr; cases (f.ordered.getD i default).isResult <;> simp
      show (!((f.ordered.getD i default).isParam || (f.ordered.getD i default).isResult ||
        (f.ordered.getD i default).isSink)) = true
      rw [hp', hr', hs']
      rfl
  · rw [if_neg hv]
    exact List.mem_range.mpr hi

theorem enum_mem_snd {α : Type} [Inhabited α] (l : List α) (i : Nat) (a : α)
    (h : (i, a) ∈ l.enum) : i < l.length ∧ l.getD i default = a ∧ a ∈ l := by
  have hg := List.mk_mem_enum_iff_getElem?.mp h
  refine ⟨?_, ?_, List.getElem?_mem hg⟩
  · by_contra hlt
    rw [List.getElem?_eq_none (by omega)] at hg
    cases hg
  · rw [List.getD_eq_getElem?_getD, hg]
    rfl

/-- C10: every emitted edge's from-port equals the producer's input count
plus the index of the producing output, which is an actual output port id
of the producer's layer (ports of a layer are numbered consecutively over
the input block then the output block), and the edge list is sorted by
from-layer id. -/
theorem C10_edge_ports (f : SFunction) (version : Int) (det : Bool)
    (hsrc : ∀ n ∈ f.ordered, ∀ inp ∈ n.inputs,
      inp.src < f.ordered.length ∧
      inp.srcOut < (f.ordered.getD inp.src default).outPorts.length ∧
      (f.ordered.getD inp.src default).isResult = false)
    (hflags : ∀ i, i < f.ordered.length →
      (((f.ordered.getD i default).isParam = true → i ∈ f.paramIdx) ∧
       ((f.ordered.getD i default).isSink = true → i ∈ f.sinkIdx) ∧
       ((f.ordered.getD i default).isResult = true → i ∈ f.resultIdx))) :
    (∀ e ∈ (ngfunction_2_ir f version det).edges,
      (∃ j, j < (f.ordered.getD e.from_layer default).outPorts.length ∧
        e.from_port =
          (f.ordered.getD e.from_layer default).inputs.length + j) ∧
      ∃ l ∈ (ngfunction_2_ir f version det).layers,
        l.id = e.from_layer ∧ e.from_port ∈ l.outPorts.map fun p => p.id) ∧
    List.Pairwise (fun a b => a.from_layer ≤ b.from_layer)
      (ngfunction_2_ir f version det).edges := by
  constructor
  · intro e he
    have he1 : e ∈ create_edge_mapping f := List.mem_of_mem_filter he
    have he2 : e ∈ edges_of_nodes f f.ordered.enum := by
      unfold create_edge_mapping at he1
      exact List.mem_mergeSort.mp he1
    obtain ⟨i, n, hmem, hnp, k, inp, hkin, heq⟩ := edges_of_nodes_mem f _ e he2
    obtain ⟨hilt, higet, hinmem⟩ := enum_mem_snd f.ordered i n hmem
    have hinp : inp ∈ n.inputs := (enum_mem_snd n.inputs k inp hkin).2.2
    obtain ⟨hslt, hsout, hsres⟩ := hsrc n hinmem inp hinp
    subst heq
    dsimp only
    constructor
    · exact ⟨inp.srcOut, hsout, rfl⟩
    · have hsmem : inp.src ∈ sorted_idx f version :=
        mem_sorted_idx f version inp.src hslt (hflags inp.src hslt)
      have hmap : inp.src ∈ ((ngfunction_2_ir f version det).layers.map
          fun l => l.id) := by
        show inp.src ∈
          ((emit_layers version det f (sorted_idx f version) [] Codec.cw_init).1.map
            fun l => l.id)
        rw [emit_layers_map_id]
        exact hsmem
      obtain ⟨l, hlmem, hlid⟩ := List.mem_map.mp hmap
      refine ⟨l, hlmem, hlid, ?_⟩
      obtain ⟨i', u', c', _, heq'⟩ := emit_layers_mem version det f _ l _ _ hlmem
      have hieq : i' = inp.src := by rw [heq', emit_layer_id] at hlid; exact hlid
      subst hieq
      subst heq'
      rw [emit_layer_outPorts]
      unfold emit_out_ports
      have houtne : (f.ordered.getD inp.src default).outPorts ≠ [] :=
        List.length_pos.mp (by omega)
      rw [if_pos ⟨houtne, hsres⟩, emit_out_ports_loop_ids, List.mem_range'_1]
      omega
  · show List.Pairwise (fun a b => a.from_layer ≤ b.from_layer) (emit_edges f)
    unfold emit_edges
    exact (create_edge_mapping_sorted f).filter _

/-- Witness for C10 at the example function with version 10. -/
theorem C10_edge_ports_witness :
    (∀ e ∈ (ngfunction_2_ir exF 10 false).edges,
      (∃ j, j < (exF.ordered.getD e.from_layer default).outPorts.length ∧
        e.from_port =
          (exF.ordered.getD e.from_layer default).inputs.length + j) ∧
      ∃ l ∈ (ngfunction_2_ir exF 10 false).layers,
        l.id = e.from_layer ∧ e.from_port ∈ l.outPorts.map fun p => p.id) ∧
    List.Pairwise (fun a b => a.from_layer ≤ b.from_layer)
      (ngfunction_2_ir exF 10 false).edges :=
  C10_edge_ports exF 10 false (by decide) (by decide)

/-- Two nodes that are structurally identical and differ at most in their
auto-generated names and unique-id-derived names: every serialized field
agrees, and either both names are auto-generated (friendly name equals
the system-assigned name) or both are user-set and equal. -/
structure node_equiv (n1 n2 : SNode) : Prop where
  typeName_eq : n1.typeName = n2.typeName
  typeVersion_eq : n1.typeVersion = n2.typeVersion
  opsetName_eq : n1.opsetName = n2.opsetName
  isParam_eq : n1.isParam = n2.isParam
  isSink_eq : n1.isSink = n2.isSink
  isResult_eq : n1.isResult = n2.isResult
  inputs_eq : n1.inputs = n2.inputs
  outPorts_eq : n1.outPorts = n2.outPorts
  attrs_eq : n1.attrs = n2.attrs
  rt_eq : n1.rt = n2.rt
  constData_eq : n1.constData = n2.constData
  names_ok : (node_auto_named n1 ∧ node_auto_named n2) ∨
    (¬node_auto_named n1 ∧ ¬node_auto_named n2 ∧ n1.friendlyName = n2.friendlyName)

instance (n1 n2 : SNode) : Decidable (node_equiv n1 n2) :=
  decidable_of_iff
    (n1.typeName = n2.typeName ∧ n1.typeVersion = n2.typeVersion ∧
      n1.opsetName = n2.opsetName ∧ n1.isParam = n2.isParam ∧
      n1.isSink = n2.isSink ∧ n1.isResult = n2.isResult ∧
      n1.inputs = n2.inputs ∧ n1.outPorts = n2.outPorts ∧
      n1.attrs = n2.attrs ∧ n1.rt = n2.rt ∧ n1.constData = n2.constData ∧
      ((node_auto_named n1 ∧ node_auto_named n2) ∨
        (¬node_auto_named n1 ∧ ¬node_auto_named n2 ∧
          n1.friendlyName = n2.friendlyName)))
    ⟨fun ⟨a, b, c, d, e, f, g, h, i, j, k, l⟩ => ⟨a, b, c, d, e, f, g, h, i, j, k, l⟩,
     fun ⟨a, b, c, d, e, f, g, h, i, j, k, l⟩ => ⟨a, b, c, d, e, f, g, h, i, j, k, l⟩⟩

theorem node_equiv_default : node_equiv default default :=
  ⟨rfl, rfl, rfl, rfl, rfl, rfl, rfl, rfl, rfl, rfl, rfl, Or.inl ⟨rfl, rfl⟩⟩

theorem layer_name_equiv (n1 n2 : SNode) (used : List String)
    (hname : (node_auto_named n1 ∧ node_auto_named n2) ∨
      (¬node_auto_named n1 ∧ ¬node_auto_named n2 ∧
        n1.friendlyName = n2.friendlyName)) :
    layer_name true n1 used = layer_name true n2 used := by
  unfold layer_name
  rcases hname with ⟨ha1, ha2⟩ | ⟨ha1, ha2, hf⟩
  · rw [if_pos ⟨rfl, ha1⟩, if_pos ⟨rfl, ha2⟩]
  · rw [if_neg (fun hc => ha1 hc.2), if_neg (fun hc => ha2 hc.2)]
    unfold get_node_unique_name
    rw [hf]

theorem layer_attrs_congr (n1 n2 : SNode) (cw : Codec.ConstantWriter)
    (hat : n1.attrs = n2.attrs) (hcd : n1.constData = n2.constData) :
    layer_attrs n1 cw = layer_attrs n2 cw := by
  unfold layer_attrs
  rw [hat, hcd]

theorem emit_in_ports_congr (version : Int) (n1 n2 : SNode)
    (ht : n1.typeName = n2.typeName) (hv : n1.typeVersion = n2.typeVersion)
    (hin : n1.inputs = n2.inputs) :
    emit_in_ports version n1 = emit_in_ports version n2 := by
  unfold emit_in_ports is_lstm_cell_v0
  rw [ht, hv, hin]

theorem emit_out_ports_congr (version : Int) (n1 n2 : SNode)
    (hop : n1.outPorts = n2.outPorts) (hr : n1.isResult = n2.isResult)
    (hin : n1.inputs = n2.inputs) :
    emit_out_ports version n1 = emit_out_ports version n2 := by
  unfold emit_out_ports
  rw [hop, hr, hin]

theorem emit_layer_equiv (version : Int) (n1 n2 : SNode) (idx : Nat)
    (used : List String) (cw : Codec.ConstantWriter) (h : node_equiv n1 n2) :
    emit_layer version true n1 idx used cw =
      emit_layer version true n2 idx used cw := by
  unfold emit_layer
  rw [layer_name_equiv n1 n2 used h.names_ok,
    layer_attrs_congr n1 n2 cw h.attrs_eq h.constData_eq,
    emit_in_ports_congr version n1 n2 h.typeName_eq h.typeVersion_eq h.inputs_eq,
    emit_out_ports_congr version n1 n2 h.outPorts_eq h.isResult_eq h.inputs_eq,
    h.typeName_eq, h.opsetName_eq, h.rt_eq]

theorem emit_layers_equiv (version : Int) (f1 f2 : SFunction) (idxs : List Nat)
    (hall : ∀ i, node_equiv (f1.ordered.getD i default) (f2.ordered.getD i default)) :
    ∀ used cw, emit_layers version true f1 idxs used cw =
      emit_layers version true f2 idxs used cw := by
  induction idxs with
  | nil => intro used cw; rfl
  | cons i rest ih =>
    intro used cw
    simp only [emit_layers]
    rw [emit_layer_equiv version _ _ i used cw (hall i), ih]

theorem enum_getD {α : Type} [Inhabited α] (l : List α) (j : Nat)
    (hj : j < l.length) :
    l.enum.getD j (0, default) = (j, l.getD j default) := by
  rw [List.getD_eq_getElem?_getD, List.getElem?_enum, List.getElem?_eq_getElem hj,
    List.getD_eq_getElem?_getD, List.getElem?_eq_getElem hj]
  rfl

theorem edges_of_nodes_congr (f1 f2 : SFunction)
    (hall : ∀ i, node_equiv (f1.ordered.getD i default) (f2.ordered.getD i default)) :
    ∀ (l1 l2 : List (Nat × SNode)), l1.length = l2.length →
      (∀ j, j < l1.length →
        (l1.getD j (0, default)).1 = (l2.getD j (0, default)).1 ∧
        node_equiv (l1.getD j (0, default)).2 (l2.getD j (0, default)).2) →
      edges_of_nodes f1 l1 = edges_of_nodes f2 l2 := by
  intro l1
  induction l1 with
  | nil =>
    intro l2 hl _
    cases l2 with
    | nil => rfl
    | cons a2 r2 => simp at hl
  | cons a1 r1 ih =>
    intro l2 hl hj
    cases l2 with
    | nil => simp at hl
    | cons a2 r2 =>
      have h0 := hj 0 (by simp)
      simp only [List.getD_cons_zero] at h0
      obtain ⟨hidx, heqv⟩ := h0
      obtain ⟨i1, n1⟩ := a1
      obtain ⟨i2, n2⟩ := a2
      simp only at hidx heqv
      subst hidx
      simp only [edges_of_nodes]
      congr 1
      · rw [heqv.isParam_eq, heqv.inputs_eq]
        by_cases hp : n2.isParam = true
        · rw [if_pos hp, if_pos hp]
        · rw [if_neg hp, if_neg hp]
          apply List.map_congr_left
          intro kinp _
          rw [(hall kinp.2.src).inputs_eq]
      · refine ih r2 (by simpa using hl) ?_
        intro j hjlt
        have := hj (j + 1) (by simpa using Nat.succ_lt_succ hjlt)
        simpa using this

theorem emit_edges_congr (f1 f2 : SFunction)
    (hlen : f1.ordered.length = f2.ordered.length)
    (hall : ∀ i, node_equiv (f1.ordered.getD i default) (f2.ordered.getD i default)) :
    emit_edges f1 = emit_edges f2 := by
  unfold emit_edges create_edge_mapping
  have hed : edges_of_nodes f1 f1.ordered.enum = edges_of_nodes f2 f2.ordered.enum := by
    refine edges_of_nodes_congr f1 f2 hall _ _ (by simp [hlen]) ?_
    intro j hjlt
    rw [List.enum_length] at hjlt
    rw [enum_getD _ _ hjlt, enum_getD _ _ (by omega)]
    exact ⟨rfl, hall j⟩
  rw [hed]
  apply List.filter_congr
  intro e _
  unfold is_lstm_cell_v0
  rw [(hall e.to_layer).typeName_eq, (hall e.to_layer).typeVersion_eq]

/-- C3: deterministic-mode serialization of two structurally identical
functions that differ only in auto-generated names (detected by friendly
name equal to the system-assigned unique name) and in unique-id-derived
values produces identical metadata output and identical binary payload:
auto-generated node and function names are omitted from the output, and
layer ids are order positions, not unique ids. -/
theorem C3_deterministic_output (f1 f2 : SFunction) (version : Int)
    (hlen : f1.ordered.length = f2.ordered.length)
    (hnodes : ∀ i, i < f1.ordered.length →
      node_equiv (f1.ordered.getD i default) (f2.ordered.getD i default))
    (hparam : f1.paramIdx = f2.paramIdx) (hsink : f1.sinkIdx = f2.sinkIdx)
    (hresult : f1.resultIdx = f2.resultIdx)
    (hfn : (fn_auto_named f1 ∧ fn_auto_named f2) ∨
      (¬fn_auto_named f1 ∧ ¬fn_auto_named f2 ∧
        f1.friendlyName = f2.friendlyName)) :
    ngfunction_2_ir f1 version true = ngfunction_2_ir f2 version true := by
  have hall : ∀ i, node_equiv (f1.ordered.getD i default)
      (f2.ordered.getD i default) := by
    intro i
    by_cases hi : i < f1.ordered.length
    · exact hnodes i hi
    · rw [List.getD_eq_getElem?_getD, List.getElem?_eq_none (l := f1.ordered) (by omega),
        List.getD_eq_getElem?_getD, List.getElem?_eq_none (l := f2.ordered) (by omega)]
      exact node_equiv_default
  have hsi : sorted_idx f1 version = sorted_idx f2 version := by
    unfold sorted_idx
    rw [hparam, hsink, hresult, hlen]
    by_cases hv : 11 ≤ version
    · rw [if_pos hv, if_pos hv]
      have hfil : ((List.range f2.ordered.length).filter fun i =>
            let n := f1.ordered.getD i default
            !(n.isParam || n.isResult || n.isSink)) =
          ((List.range f2.ordered.length).filter fun i =>
            let n := f2.ordered.getD i default
            !(n.isParam || n.isResult || n.isSink)) := by
        apply List.filter_congr
        intro i _
        show (!((f1.ordered.getD i default).isParam ||
            (f1.ordered.getD i default).isResult ||
            (f1.ordered.getD i default).isSink)) = _
        rw [(hall i).isParam_eq, (hall i).isResult_eq, (hall i).isSink_eq]
      rw [hfil]
    · rw [if_neg hv, if_neg hv]
  simp only [ngfunction_2_ir]
  rw [hsi, emit_layers_equiv version f1 f2 (sorted_idx f2 version) hall,
    emit_edges_congr f1 f2 hlen hall]
  rcases hfn with ⟨ha1, ha2⟩ | ⟨ha1, ha2, hf⟩
  · rw [if_pos ⟨trivial, ha1⟩, if_pos ⟨trivial, ha2⟩]
  · rw [if_neg (fun hc => ha1 hc.2), if_neg (fun hc => ha2 hc.2), hf]

/-- The example graph rebuilt with different unique ids: the Relu node's
name is auto-generated in both versions. -/
def exAAuto : SNode :=
  ⟨"Relu", 0, "opset1", "Relu_2", "Relu_2", false, false, false,
    [⟨0, 0, ⟨"FP32", [1], [], []⟩⟩], [⟨"FP32", [1], [], []⟩], [], [], none⟩

def exP2 : SNode :=
  ⟨"Parameter", 0, "opset1", "p", "Parameter_8", true, false, false, [],
    [⟨"FP32", [1], ["x"], []⟩], [], [], none⟩

def exAAuto2 : SNode :=
  ⟨"Relu", 0, "opset1", "Relu_77", "Relu_77", false, false, false,
    [⟨0, 0, ⟨"FP32", [1], [], []⟩⟩], [⟨"FP32", [1], [], []⟩], [], [], none⟩

def exR2 : SNode :=
  ⟨"Result", 0, "opset1", "r", "Result_99", false, false, true,
    [⟨1, 0, ⟨"FP32", [1], [], []⟩⟩], [⟨"FP32", [1], [], []⟩], [], [], none⟩

def exF1 : SFunction := ⟨"net", "Function_0", [exP, exAAuto, exR], [0], [], [2]⟩

def exF2 : SFunction := ⟨"net", "Function_9", [exP2, exAAuto2, exR2], [0], [], [2]⟩

/-- Witness for C3: the same graph built with different unique ids (and a
differently auto-named Relu) serializes identically in deterministic
mode. -/
theorem C3_deterministic_output_witness :
    ngfunction_2_ir exF1 11 true = ngfunction_2_ir exF2 11 true :=
  C3_deterministic_output exF1 exF2 11 (by decide) (by decide) rfl rfl rfl
    (by decide)

/-- Witness for C7 at the example function with version 11. -/
theorem C7_version_layout_witness :
    ((ngfunction_2_ir exF 11 false).layers.map fun l => l.id) =
      exF.paramIdx ++
        ((List.range exF.ordered.length).filter fun i =>
          let n := exF.ordered.getD i default
          !(n.isParam || n.isResult || n.isSink)) ++
        exF.sinkIdx ++ exF.resultIdx ∧
    ∀ l ∈ (ngfunction_2_ir exF 11 false).layers,
      (∀ p ∈ l.inPorts, p.rt.isSome = true) ∧
        ∀ p ∈ l.outPorts, p.rt.isSome = true :=
  (C7_version_layout exF false 11).2 (by norm_num)

end Serializer

namespace SerializePass

/-- `ov::pass::Serialize::Version` values.  Modelled from the spec: the
header defining the enum is outside the provided tree; `UNSPECIFIED`
maps to 0 and the two supported structural versions are 10 and 11. -/
def UNSPECIFIED : Int := 0

def IR_V10 : Int := 10

def IR_V11 : Int := 11

inductive SerErr where
  | version_mismatch
  | unsupported_version
  | cant_open_bin
  | cant_open_xml
deriving DecidableEq, Repr

/-- `serializeFunc` (`serialize.cpp` lines 1041-1075): an embedded
"version" rt-info hint overrides the requested version; an explicit
request differing from the hint is a hard error; `UNSPECIFIED` defaults
to IR_V11; versions other than 10 and 11 are unsupported.  All checks
precede any write to either stream; the abstract graph is represented by
its two per-version serialized streams. -/
def serializeFunc (verHint : Option Int) (ver : Int)
    (xmlOf binOf : Int → List Nat) : Except SerErr (List Nat × List Nat) :=
  let version := match verHint with | some h => h | none => ver
  if version ≠ ver ∧ ver ≠ UNSPECIFIED then .error .version_mismatch
  else
    let version := if version = UNSPECIFIED then IR_V11 else version
    if version ≠ IR_V10 ∧ version ≠ IR_V11 then .error .unsupported_version
    else .ok (xmlOf version, binOf version)

/-- The two output files: `none` means the file does not exist,
`some bytes` its current content (`some []` a created, empty file). -/
structure FS where
  xml : Option (List Nat)
  bin : Option (List Nat)
deriving DecidableEq, Repr

/-- `pass::Serialize::run_on_function`, file-based branch (lines
1080-1103): the bin file is created first, then the xml file — an
unopenable target is a hard error raised outside the try block, leaving
any already-created (still empty) file behind — and `serializeFunc` runs
inside a try block whose handler removes both files and rethrows.
The handler catching the serialization failure is modelled from the
spec ("partially created output files are removed"); the C++ exception
class hierarchy is outside the provided tree. -/
def run_on_function (binOpenable xmlOpenable : Bool) (verHint : Option Int)
    (ver : Int) (xmlOf binOf : Int → List Nat) : Except SerErr Unit × FS :=
  if binOpenable = false then (.error .cant_open_bin, ⟨none, none⟩)
  else if xmlOpenable = false then (.error .cant_open_xml, ⟨none, some []⟩)
  else
    match serializeFunc verHint ver xmlOf binOf with
    | .ok (x, b) => (.ok (), ⟨some x, some b⟩)
    | .error e => (.error e, ⟨none, none⟩)

/-- C6: an explicit version request differing from the graph's embedded
hint, an unsupported version, and an unopenable output target each abort
file-based serialization with a hard error before any byte is committed:
the version errors are raised before either stream is written and the
try-handler removes both created files; an unopenable bin target creates
nothing; an unopenable xml target errors with only the already-created,
still-empty bin file behind.  In every error case no output file with
content remains. -/
theorem C6_failure_semantics (verHint : Option Int) (ver h : Int)
    (xmlOf binOf : Int → List Nat) :
    (verHint = some h → h ≠ ver → ver ≠ UNSPECIFIED →
      run_on_function true true verHint ver xmlOf binOf =
        (.error .version_mismatch, ⟨none, none⟩)) ∧
    (verHint = none → ver ≠ UNSPECIFIED → ver ≠ IR_V10 → ver ≠ IR_V11 →
      run_on_function true true verHint ver xmlOf binOf =
        (.error .unsupported_version, ⟨none, none⟩)) ∧
    (∀ xmlOpenable, run_on_function false xmlOpenable verHint ver xmlOf binOf =
      (.error .cant_open_bin, ⟨none, none⟩)) ∧
    (run_on_function true false verHint ver xmlOf binOf =
      (.error .cant_open_xml, ⟨none, some []⟩)) := by
  refine ⟨?_, ?_, ?_, ?_⟩
  · intro hh hne hu
    subst hh
    simp only [run_on_function, serializeFunc]
    split_ifs <;> first | rfl | simp_all
  · intro hh hne h10 h11
    subst hh
    simp only [run_on_function, serializeFunc]
    split_ifs <;> first | rfl | simp_all
  · intro xmlOpenable
    simp only [run_on_function]
    split_ifs <;> first | rfl | simp_all
  · simp only [run_on_function]
    split_ifs <;> first | rfl | simp_all

/-- Witness for C6: requesting version 11 against an embedded version-10
hint errors out and removes both files. -/
theorem C6_failure_semantics_witness :
    run_on_function true true (some 10) 11 (fun _ => []) (fun _ => []) =
      (.error .version_mismatch, ⟨none, none⟩) :=
  (C6_failure_semantics (some 10) 11 10 (fun _ => []) (fun _ => [])).1
    rfl (by decide) (by decide)

end SerializePass

namespace Rewrite

/-- A node in the rewrite pass's graph arena: operation kind, element
bitwidth, shape, producer ids, constant payload values and FakeQuantize
level count.  Producer references are ids into the arena (the spec's
arena-of-nodes design). -/
structure PNode where
  op : String
  bitwidth : Nat
  shape : List Nat
  inputs : List Nat
  data : List Int
  levels : Nat
deriving DecidableEq, Repr

instance : Inhabited PNode := ⟨⟨"", 0, [], [], [], 0⟩⟩

structure PGraph where
  nodes : List PNode
deriving DecidableEq, Repr

/-- `op::util::get_single_value`: the constant holds one repeated value.
Modelled from the spec: the utility's source is outside the provided
tree. -/
def is_single_value_data (d : List Int) : Bool :=
  match d with
  | [] => false
  | x :: xs => xs.all (· == x)

/-- `shape_size`: the number of elements of a shape. -/
def shape_size (s : List Nat) : Nat := s.foldl (· * ·) 1

def conv_or_matmul_ops : List String :=
  ["Convolution", "GroupConvolution", "ConvolutionBackpropData",
   "GroupConvolutionBackpropData", "MatMul"]

/-- `Node::get_users`: the nodes consuming an output of node `i`. -/
def node_users (g : PGraph) (i : Nat) : List PNode :=
  g.nodes.filter fun n => n.inputs.contains i

/-- `replace_node(old, new)`: every consumer of `old` reads `new`
instead, input order preserved. -/
def replace_node (g : PGraph) (old new : Nat) : PGraph :=
  ⟨g.nodes.map fun n =>
    ⟨n.op, n.bitwidth, n.shape, n.inputs.map fun j => if j = old then new else j,
      n.data, n.levels⟩⟩

/-- The accepting path of the AddFakeQuantizeFusion callback
(`add_fake_quantize_fusion.cpp` lines 96-113): build the two Subtract
nodes for the shifted input bounds and the replacement FakeQuantize
reading the Add's other input, append them, and swap the matched
FakeQuantize's consumers over to the replacement. -/
def apply_fusion (g : PGraph) (input add_const fq : Nat) : PGraph :=
  let fqN := g.nodes.getD fq default
  let base := g.nodes.length
  let new_low : PNode :=
    ⟨"Subtract", fqN.bitwidth, fqN.shape, [fqN.inputs.getD 1 0, add_const], [], 0⟩
  let new_high : PNode :=
    ⟨"Subtract", fqN.bitwidth, fqN.shape, [fqN.inputs.getD 2 0, add_const], [], 0⟩
  let new_fq : PNode :=
    ⟨"FakeQuantize", fqN.bitwidth, fqN.shape,
      [input, base, base + 1, fqN.inputs.getD 3 0, fqN.inputs.getD 4 0], [],
      fqN.levels⟩
  replace_node ⟨g.nodes ++ [new_low, new_high, new_fq]⟩ fq (base + 2)

/-- The AddFakeQuantizeFusion matcher callback
(`add_fake_quantize_fusion.cpp` lines 31-114), given the matched values:
the producer feeding the Add, the Add's Constant operand, the Add and the
FakeQuantize.  Every `return false` happens before any graph mutation;
`replace_node` runs only on the accepting path, which returns true. -/
def callback (g : PGraph) (input add_const add fq : Nat) : Bool × PGraph :=
  if (g.nodes.getD input default).bitwidth < 32 then (false, g)
  else if (g.nodes.getD fq default).op ≠ "FakeQuantize" then (false, g)
  else if (g.nodes.getD add_const default).op ≠ "Constant" then (false, g)
  else
    let const_shape := (g.nodes.getD add_const default).shape
    let const_shape_size := shape_size const_shape
    let is_single_value := const_shape_size = 1 ∨
      is_single_value_data (g.nodes.getD add_const default).data
    if ¬is_single_value ∧
        ¬((const_shape.getD 0 0 > 1 ∧ const_shape.getD 0 0 = const_shape_size) ∨
          (const_shape.length > 1 ∧ const_shape.getD 1 0 = const_shape_size)) then
      (false, g)
    else if ¬is_single_value ∧
        ((g.nodes.getD add default).inputs.any fun j =>
          conv_or_matmul_ops.contains (g.nodes.getD j default).op) then
      (false, g)
    else if ¬is_single_value ∧
        ((node_users g fq).any fun n => n.op == "Concat") then
      (false, g)
    else
      (true, apply_fusion g input add_const fq)

/-- C8: a matcher callback invocation that returns false (declines the
match) leaves the graph exactly as it was — node count, every node's
connections and every attribute — because every `return false` path
precedes any mutation; `replace_node` runs only on the accepting path. -/
theorem C8_callback_false_no_mutation (g : PGraph) (input add_const add fq : Nat)
    (h : (callback g input add_const add fq).1 = false) :
    (callback g input add_const add fq).2 = g := by
  simp only [callback] at h ⊢
  split_ifs at h ⊢ <;> first | rfl | simp at h

/-- A matched subgraph the callback declines (16-bit input). -/
def exG : PGraph :=
  ⟨[⟨"Parameter", 16, [1, 4], [], [], 0⟩,
    ⟨"Constant", 16, [1], [], [3], 0⟩,
    ⟨"Add", 16, [1, 4], [0, 1], [], 0⟩,
    ⟨"FakeQuantize", 16, [1, 4], [2, 0, 0, 0, 0], [], 256⟩]⟩

/-- Witness for C8: the declined match leaves the concrete graph
untouched. -/
theorem C8_callback_false_no_mutation_witness :
    (callback exG 0 1 2 3).2 = exG :=
  C8_callback_false_no_mutation exG 0 1 2 3 (by decide)

end Rewrite
